import Mathlib

/-!
# Header-field scanner of vmime (`src/headerField.cpp`)

A shallow embedding of `headerField::parseNext` and a verification of the
scanner's contract.

Conventions of the embedding.

* A buffer is a list of characters; `string::size_type` cursors are natural
  numbers (a cursor only grows, and by at most one beyond `end`, so unsigned
  wrap-around plays no role).
* `buffer[i]` on a `const string` yields the NUL character at `i = size()`;
  an index beyond `size()` is outside the C++ contract and is read as NUL as
  well.  For a window with `end ≤ size()` no such index is ever read.
* Loops are recursions on a fuel counter.  The two straight-line scans return
  their current state when the fuel is used up, and are always called with
  fuel `end - pos`, which is exactly the number of iterations left in the
  window.  The two loops whose body is compound report exhausted fuel as
  `none`; the theorems below show that this never happens.
* The field returned by the scanner is recorded by the three things the
  scanner decides: the name handed to the factory, the raw text handed to
  `parse`, and the bounds handed to `setParsedBounds`.
* The member functions work on a field object given by its name and its value.
  The value, its `copyFrom` and `generate`, and the factory are declared outside
  this file of the library and are parameters here.  An output stream is given
  by the bytes written to it.  Columns are values of `string::size_type`, and
  the sum that `generate` forms of them wraps around modulo `2 ^ 64`.
-/

namespace vmime

/-- Contents of a `string`. -/
abbrev Buffer := List Char

/-- The expression `buffer[i]`. -/
def charAt (buffer : Buffer) (i : Nat) : Char :=
  buffer.getD i (Char.ofNat 0)

/-- The range constructor `string(buffer.begin() + a, buffer.begin() + b)`. -/
def substr (buffer : Buffer) (a b : Nat) : Buffer :=
  (buffer.drop a).take (b - a)

/-- Modelled from the spec: `parserHelpers::isspace` is declared in
`vmime/parserHelpers.hpp`, which is not part of the sources at hand; whitespace
is space, tab, CR and LF. -/
def isspace (c : Char) : Bool :=
  c == ' ' || c == '\t' || c == '\n' || c == '\r'

/-- The test `c == ' ' || c == '\t'` of lines 109, 134 and 188. -/
def isBlank (c : Char) : Bool :=
  c == ' ' || c == '\t'

/-- The test `c != ':' && !parserHelpers::isspace(c)` of line 104. -/
def isNameChar (c : Char) : Bool :=
  c != ':' && !isspace c

/-- The test `c != '\n'` of lines 118 and 215. -/
def notLF (c : Char) : Bool :=
  c != '\n'

/-- The test `c == '\r' && pos + 1 < end && buffer[pos + 1] == '\n'` of lines
91, 145 and 164. -/
def isCRLF (buffer : Buffer) (end_ pos : Nat) : Bool :=
  charAt buffer pos == '\r' && decide (pos + 1 < end_) && charAt buffer (pos + 1) == '\n'

/-- What the scanner fixes of the field it returns. -/
structure headerField where
  /-- The argument of `headerFieldFactory::create`. -/
  name : Buffer
  /-- The argument of `field->parse`. -/
  contents : Buffer
  /-- The arguments of `setParsedBounds`. -/
  parsedBounds : Nat × Nat
deriving DecidableEq, Repr

/-- The loop `while (pos < end && cond(buffer[pos])) ++pos;`. -/
def advanceWhile (cond : Char → Bool) (buffer : Buffer) (end_ : Nat) : Nat → Nat → Nat
  | 0, pos => pos
  | fuel + 1, pos =>
    if pos < end_ ∧ cond (charAt buffer pos) = true then
      advanceWhile cond buffer end_ fuel (pos + 1)
    else pos

/-- The loop of lines 159-178: look for the terminator of the physical line;
the result is `(ctsEnd, pos)`. -/
def scanLine (buffer : Buffer) (end_ ctsEnd : Nat) : Nat → Nat → Nat × Nat
  | 0, pos => (ctsEnd, pos)
  | fuel + 1, pos =>
    if pos < end_ then
      if isCRLF buffer end_ pos = true then (pos, pos + 2)
      else if charAt buffer pos = '\n' then (pos, pos + 1)
      else scanLine buffer end_ ctsEnd fuel (pos + 1)
    else (ctsEnd, pos)

/-- The loop of lines 140-198: collect the value over the folded lines; the
result is `(pos, contents)`. -/
def scanContents (buffer : Buffer) (end_ : Nat) : Nat → Nat → Buffer → Option (Nat × Buffer)
  | 0, _, _ => none
  | fuel + 1, pos, contents =>
    if pos < end_ then
      if isCRLF buffer end_ pos = true then some (pos + 2, contents)
      else if charAt buffer pos = '\n' then some (pos + 1, contents)
      else
        let ctsStart := pos
        let r := scanLine buffer end_ pos (end_ - pos) pos
        let ctsEnd := r.1
        let pos := r.2
        let contents :=
          if ctsEnd ≠ ctsStart then contents ++ substr buffer ctsStart ctsEnd else contents
        if isBlank (charAt buffer pos) = true then scanContents buffer end_ fuel pos contents
        else some (pos, contents)
    else some (pos, contents)

/-- Outcome of one turn of the outer loop of `parseNext`. -/
inductive Step where
  /-- A `return`, with the field (or `NULL`) and `*newPosition`. -/
  | done (field : Option headerField) (newPosition : Nat)
  /-- The loop goes on from `pos`. -/
  | next (pos : Nat)
deriving DecidableEq, Repr

/-- The body of the outer loop (lines 79-220), entered with `pos < end`. -/
def loopBody (buffer : Buffer) (end_ pos : Nat) : Option Step :=
  let c := charAt buffer pos
  if c = '\n' then some (.done none (pos + 1))
  else if isCRLF buffer end_ pos = true then some (.done none (pos + 2))
  else if isspace c = false then
    let nameStart := pos
    let pos := advanceWhile isNameChar buffer end_ (end_ - pos) pos
    let nameEnd := pos
    let pos := advanceWhile isBlank buffer end_ (end_ - pos) pos
    if charAt buffer pos ≠ ':' then
      let pos := nameStart
      let pos := advanceWhile notLF buffer end_ (end_ - pos) pos
      let pos := if pos < end_ ∧ charAt buffer pos = '\n' then pos + 1 else pos
      some (.next pos)
    else
      let name := substr buffer nameStart nameEnd
      let pos := pos + 1
      let pos := advanceWhile isBlank buffer end_ (end_ - pos) pos
      match scanContents buffer end_ (end_ - pos + 1) pos [] with
      | none => none
      | some (pos, contents) => some (.done (some ⟨name, contents, (nameStart, pos)⟩) pos)
  else
    let pos := advanceWhile notLF buffer end_ (end_ - pos) pos
    let pos := if charAt buffer pos = '\n' then pos + 1 else pos
    some (.next pos)

/-- The cursor behind the name scan of lines 104-105 started at `pos`
(`nameEnd`). -/
abbrev nameEndOf (buffer : Buffer) (end_ pos : Nat) : Nat :=
  advanceWhile isNameChar buffer end_ (end_ - pos) pos

/-- The cursor behind the blank scan of lines 109-110: where line 112 looks for
the colon. -/
abbrev colonOf (buffer : Buffer) (end_ pos : Nat) : Nat :=
  advanceWhile isBlank buffer end_ (end_ - nameEndOf buffer end_ pos) (nameEndOf buffer end_ pos)

/-- The cursor behind the blank scan of lines 134-135: where the value scan
starts. -/
abbrev valueStartOf (buffer : Buffer) (end_ pos : Nat) : Nat :=
  advanceWhile isBlank buffer end_ (end_ - (colonOf buffer end_ pos + 1))
    (colonOf buffer end_ pos + 1)

/-- The outer loop of lines 77-226. -/
def parseNextLoop (buffer : Buffer) (end_ : Nat) : Nat → Nat → Option (Option headerField × Nat)
  | 0, _ => none
  | fuel + 1, pos =>
    if pos < end_ then
      match loopBody buffer end_ pos with
      | none => none
      | some (.done field newPosition) => some (field, newPosition)
      | some (.next pos) => parseNextLoop buffer end_ fuel pos
    else some (none, pos)

/-- The function `headerField::parseNext(buffer, position, end, &newPosition)`:
the returned field (`none` for `NULL`) and `*newPosition`.  The outer `none`
stands for a loop that did not finish within its fuel. -/
def parseNext (buffer : Buffer) (position end_ : Nat) : Option (Option headerField × Nat) :=
  parseNextLoop buffer end_ (end_ - position + 1) position

/-- The repeated scan the contract speaks of: `parseNext` is called over the
whole buffer, each call starting at the `newPosition` of the one before, until
a call returns no field; the result is the list of the fields returned and the
`newPosition` of the last call.  At most `calls` calls are made, and `none`
says that all of them returned a field. -/
def scanRepeatedly (buffer : Buffer) : Nat → Nat → Option (List headerField × Nat)
  | 0, _ => none
  | calls + 1, position =>
    match parseNext buffer position buffer.length with
    | none => none
    | some (none, newPosition) => some ([], newPosition)
    | some (some field, newPosition) =>
      match scanRepeatedly buffer calls newPosition with
      | none => none
      | some (fields, last) => some (field :: fields, last)

/-! ## The scanner with the other restart point -/

/-- The body of the outer loop as the design note describes the alternative:
the same as `loopBody`, except that the skip to the next LF on a line
without colon starts where the name scan and the blank scan stopped, not at
`nameStart` (line 116 left out). -/
def loopBodyFromStop (buffer : Buffer) (end_ pos : Nat) : Option Step :=
  let c := charAt buffer pos
  if c = '\n' then some (.done none (pos + 1))
  else if isCRLF buffer end_ pos = true then some (.done none (pos + 2))
  else if isspace c = false then
    let nameStart := pos
    let pos := advanceWhile isNameChar buffer end_ (end_ - pos) pos
    let nameEnd := pos
    let pos := advanceWhile isBlank buffer end_ (end_ - pos) pos
    if charAt buffer pos ≠ ':' then
      let pos := advanceWhile notLF buffer end_ (end_ - pos) pos
      let pos := if pos < end_ ∧ charAt buffer pos = '\n' then pos + 1 else pos
      some (.next pos)
    else
      let name := substr buffer nameStart nameEnd
      let pos := pos + 1
      let pos := advanceWhile isBlank buffer end_ (end_ - pos) pos
      match scanContents buffer end_ (end_ - pos + 1) pos [] with
      | none => none
      | some (pos, contents) => some (.done (some ⟨name, contents, (nameStart, pos)⟩) pos)
  else
    let pos := advanceWhile notLF buffer end_ (end_ - pos) pos
    let pos := if charAt buffer pos = '\n' then pos + 1 else pos
    some (.next pos)

/-- The outer loop around `loopBodyFromStop`. -/
def parseNextLoopFromStop (buffer : Buffer) (end_ : Nat) :
    Nat → Nat → Option (Option headerField × Nat)
  | 0, _ => none
  | fuel + 1, pos =>
    if pos < end_ then
      match loopBodyFromStop buffer end_ pos with
      | none => none
      | some (.done field newPosition) => some (field, newPosition)
      | some (.next pos) => parseNextLoopFromStop buffer end_ fuel pos
    else some (none, pos)

/-- The variant of `parseNext` that restarts the no-colon skip at the stop
point of the name scan. -/
def parseNextFromStop (buffer : Buffer) (position end_ : Nat) :
    Option (Option headerField × Nat) :=
  parseNextLoopFromStop buffer end_ (end_ - position + 1) position

/-! ## The member functions of a field -/

/-- A `headerField` object as its member functions see it: the member `m_name`
and the value that `getValue()` yields, of a type `V` this file does not look
into. -/
structure headerFieldObject (V : Type) where
  /-- The member `m_name`. -/
  m_name : Buffer
  /-- The object behind `getValue()`. -/
  value : V

/-- A `component` as `copyFrom` receives it: a header field, or an object of
another class. -/
inductive component (V : Type) where
  /-- A `headerField`. -/
  | field (hf : headerFieldObject V)
  /-- Any other component. -/
  | other

/-- The failure of `dynamic_cast <const headerField&>`. -/
inductive castError where
  /-- The exception `std::bad_cast`. -/
  | bad_cast
deriving DecidableEq, Repr

/-- The function `headerField::copyFrom(other)` of lines 57-62: the object
after the call.  `valueCopyFrom v w` is `v` after `v.copyFrom(w)`. -/
def copyFrom {V : Type} (valueCopyFrom : V → V → V) (self : headerFieldObject V) :
    component V → Except castError (headerFieldObject V)
  | .field hf => .ok { self with value := valueCopyFrom self.value hf.value }
  | .other => .error .bad_cast

/-- The assignment `headerField::operator=(other)` of lines 65-69. -/
def assign {V : Type} (valueCopyFrom : V → V → V) (self other : headerFieldObject V) :
    Except castError (headerFieldObject V) :=
  copyFrom valueCopyFrom self (.field other)

/-- The function `headerField::clone()` of lines 47-54: the object returned.
`create` is `headerFieldFactory::create`.  The function is a `const` member, so
`self` is only read. -/
def clone {V : Type} (create : Buffer → headerFieldObject V) (valueCopyFrom : V → V → V)
    (self : headerFieldObject V) : Except castError (headerFieldObject V) :=
  let field := create self.m_name
  copyFrom valueCopyFrom field (.field self)

/-- The number of values of `string::size_type`, the 64 bit `std::size_t`:
arithmetic in that type is arithmetic modulo this number. -/
def sizeTypeModulus : Nat := 2 ^ 64

/-- The function `headerField::generate(os, maxLineLength, curLinePos,
newLinePos)` of lines 237-243: the stream, given by the bytes written to it so
far, and `*newLinePos` after the call.  `valueGenerate v` is the generator of
the value `v`, from a stream, `maxLineLength` and `curLinePos` to the stream
and `*newLinePos` after it.  The column handed on is the sum
`curLinePos + m_name.length() + 2` as `string::size_type` forms it. -/
def generate {V : Type} (valueGenerate : V → Buffer → Nat → Nat → Buffer × Nat)
    (self : headerFieldObject V) (os : Buffer) (maxLineLength curLinePos : Nat) : Buffer × Nat :=
  let os := os ++ (self.m_name ++ [':', ' '])
  valueGenerate self.value os maxLineLength
    ((curLinePos + self.m_name.length + 2) % sizeTypeModulus)

/-- The function `headerField::isCustom()` of lines 252-255. -/
def isCustom {V : Type} (self : headerFieldObject V) : Bool :=
  decide (self.m_name.length > 2) && charAt self.m_name 0 == 'X' && charAt self.m_name 1 == '-'

/-! ## Shapes of input the contract speaks about -/

/-- A line terminator: CRLF or a bare LF. -/
abbrev isTerminator (t : Buffer) : Prop :=
  t = ['\r', '\n'] ∨ t = ['\n']

/-- A byte string free of CR and LF. -/
abbrev noLineBreak (v : Buffer) : Prop :=
  ∀ c ∈ v, c ≠ '\r' ∧ c ≠ '\n'

/-- A byte string whose first byte is a space or a tab. -/
def startsBlank : Buffer → Bool
  | [] => false
  | c :: _ => c == ' ' || c == '\t'

/-- A run of spaces and tabs. -/
abbrev allBlank (w : Buffer) : Prop :=
  ∀ c ∈ w, c = ' ' ∨ c = '\t'

/-- A byte string free of colon, space, tab, CR and LF. -/
abbrev nameBytes (name : Buffer) : Prop :=
  ∀ c ∈ name, c ≠ ':' ∧ c ≠ ' ' ∧ c ≠ '\t' ∧ c ≠ '\r' ∧ c ≠ '\n'

/-- The text of physical lines given as (content, terminator) pairs. -/
def foldedText : List (Buffer × Buffer) → Buffer
  | [] => []
  | l :: ls => l.1 ++ (l.2 ++ foldedText ls)

/-- The contents of physical lines, put together without their terminators. -/
def foldedValue : List (Buffer × Buffer) → Buffer
  | [] => []
  | l :: ls => l.1 ++ foldedValue ls

/-- The bytes of the ranges `[p.1, p.2)` of the buffer, put together in the
order of the list. -/
def piecesText (buffer : Buffer) : List (Nat × Nat) → Buffer
  | [] => []
  | p :: ps => substr buffer p.1 p.2 ++ piecesText buffer ps

/-- What a piece of the value text is: a range `[p.1, p.2)` of the buffer that
starts at `lo` or behind it and ends before `hi`, is not empty and free of LF,
and is followed at once by a terminator whose LF lies in the window. -/
def isLinePiece (b : Buffer) (e lo hi : Nat) (p : Nat × Nat) : Prop :=
  lo ≤ p.1 ∧ p.1 < p.2 ∧ p.2 < hi ∧ p.2 < e ∧
    (∀ j, p.1 ≤ j → j < p.2 → charAt b j ≠ '\n') ∧
    (charAt b p.2 = '\n' ∨ isCRLF b e p.2 = true)

/-- A header line `name: value` with its terminator, given as
(name, value, terminator). -/
def headerLine (l : Buffer × Buffer × Buffer) : Buffer :=
  l.1 ++ (':' :: ' ' :: (l.2.1 ++ l.2.2))

/-- The text of a list of header lines. -/
def headerBlock : List (Buffer × Buffer × Buffer) → Buffer
  | [] => []
  | l :: ls => headerLine l ++ headerBlock ls

/-! ## The straight-line scans -/

theorem advanceWhile_ge (cond : Char → Bool) (b : Buffer) (e : Nat) :
    ∀ fuel pos, pos ≤ advanceWhile cond b e fuel pos
  | 0, pos => by simp [advanceWhile]
  | fuel + 1, pos => by
    unfold advanceWhile
    split
    · exact Nat.le_trans (Nat.le_succ pos) (advanceWhile_ge cond b e fuel (pos + 1))
    · exact Nat.le_refl _

theorem advanceWhile_le (cond : Char → Bool) (b : Buffer) (e : Nat) :
    ∀ fuel pos, pos ≤ e → advanceWhile cond b e fuel pos ≤ e
  | 0, pos, h => by simpa [advanceWhile] using h
  | fuel + 1, pos, h => by
    unfold advanceWhile
    split
    · next hc => exact advanceWhile_le cond b e fuel (pos + 1) hc.1
    · exact h

/-- With fuel `end - pos` the scan stops only where the loop condition fails. -/
theorem advanceWhile_exit (cond : Char → Bool) (b : Buffer) (e : Nat) :
    ∀ fuel pos, e - pos ≤ fuel →
      ¬ (advanceWhile cond b e fuel pos < e ∧
          cond (charAt b (advanceWhile cond b e fuel pos)) = true)
  | 0, pos, h => by
    simp only [advanceWhile]
    intro hc
    omega
  | fuel + 1, pos, h => by
    unfold advanceWhile
    split
    · exact advanceWhile_exit cond b e fuel (pos + 1) (by omega)
    · next hc => exact hc

/-- Every position the scan steps over satisfies the loop condition. -/
theorem advanceWhile_run (cond : Char → Bool) (b : Buffer) (e : Nat) :
    ∀ fuel pos i, pos ≤ i → i < advanceWhile cond b e fuel pos →
      i < e ∧ cond (charAt b i) = true
  | 0, pos, i, h1, h2 => by
    simp only [advanceWhile] at h2
    omega
  | fuel + 1, pos, i, h1, h2 => by
    unfold advanceWhile at h2
    split at h2
    · next hc =>
      rcases Nat.eq_or_lt_of_le h1 with h | h
      · subst h
        exact hc
      · exact advanceWhile_run cond b e fuel (pos + 1) i h h2
    · omega

/-- The scan is determined by the run it steps over. -/
theorem advanceWhile_eq (cond : Char → Bool) (b : Buffer) (e q : Nat) :
    ∀ fuel pos, pos ≤ q → q ≤ e → q - pos ≤ fuel →
      (∀ i, pos ≤ i → i < q → cond (charAt b i) = true) →
      ¬ (q < e ∧ cond (charAt b q) = true) →
      advanceWhile cond b e fuel pos = q
  | 0, pos, h1, _, h3, _, _ => by
    simp only [advanceWhile]
    omega
  | fuel + 1, pos, h1, h2, h3, h4, h5 => by
    unfold advanceWhile
    rcases Nat.eq_or_lt_of_le h1 with h | h
    · subst h
      rw [if_neg h5]
    · rw [if_pos ⟨by omega, h4 pos (Nat.le_refl _) h⟩]
      exact advanceWhile_eq cond b e q fuel (pos + 1) h h2 (by omega)
        (fun i hi hq => h4 i (by omega) hq) h5

theorem scanLine_ge (b : Buffer) (e ctsEnd : Nat) :
    ∀ fuel pos, pos ≤ (scanLine b e ctsEnd fuel pos).2
  | 0, pos => by simp [scanLine]
  | fuel + 1, pos => by
    unfold scanLine
    split
    · split
      · simp
      · split
        · simp
        · exact Nat.le_trans (Nat.le_succ pos) (scanLine_ge b e ctsEnd fuel (pos + 1))
    · simp

theorem isCRLF_lt {b : Buffer} {e pos : Nat} (h : isCRLF b e pos = true) : pos + 1 < e := by
  simp only [isCRLF, Bool.and_eq_true, decide_eq_true_eq] at h
  exact h.1.2

theorem isCRLF_charAt {b : Buffer} {e pos : Nat} (h : isCRLF b e pos = true) :
    charAt b pos = '\r' ∧ charAt b (pos + 1) = '\n' := by
  simp only [isCRLF, Bool.and_eq_true, decide_eq_true_eq, beq_iff_eq] at h
  exact ⟨h.1.1, h.2⟩

theorem scanLine_le (b : Buffer) (e ctsEnd : Nat) :
    ∀ fuel pos, pos ≤ e → (scanLine b e ctsEnd fuel pos).2 ≤ e
  | 0, pos, h => by simpa [scanLine] using h
  | fuel + 1, pos, h => by
    unfold scanLine
    split
    · next hlt =>
      split
      · next hc => exact isCRLF_lt hc
      · split
        · exact hlt
        · exact scanLine_le b e ctsEnd fuel (pos + 1) hlt
    · exact h

/-- One turn of the line scan from a byte that opens no terminator moves the
cursor. -/
theorem scanLine_gt (b : Buffer) (e ctsEnd pos : Nat) (hlt : pos < e)
    (h1 : isCRLF b e pos = false) (h2 : charAt b pos ≠ '\n') :
    pos < (scanLine b e ctsEnd (e - pos) pos).2 := by
  obtain ⟨n, hn⟩ : ∃ n, e - pos = n + 1 := ⟨e - pos - 1, by omega⟩
  rw [hn]
  unfold scanLine
  rw [if_pos hlt, h1, if_neg (by simp), if_neg h2]
  exact scanLine_ge b e ctsEnd n (pos + 1)

/-! ## The compound loops finish -/

theorem scanContents_total (b : Buffer) (e : Nat) :
    ∀ fuel pos contents, e - pos < fuel →
      ∃ r, scanContents b e fuel pos contents = some r ∧ pos ≤ r.1 ∧ (pos < e → pos < r.1)
  | 0, pos, contents, h => by omega
  | fuel + 1, pos, contents, h => by
    unfold scanContents
    by_cases hlt : pos < e
    · rw [if_pos hlt]
      by_cases h1 : isCRLF b e pos = true
      · rw [if_pos h1]
        exact ⟨_, rfl, by simp, by simp⟩
      · rw [if_neg h1]
        by_cases h2 : charAt b pos = '\n'
        · rw [if_pos h2]
          exact ⟨_, rfl, by simp, by simp⟩
        · rw [if_neg h2]
          have hgt := scanLine_gt b e pos pos hlt (by simpa using h1) h2
          simp only
          split
          · obtain ⟨r, hr, hr1, _⟩ := scanContents_total b e fuel
              (scanLine b e pos (e - pos) pos).2 _ (by omega)
            exact ⟨r, hr, by omega, by omega⟩
          · exact ⟨_, rfl, by simp; omega, by simp; omega⟩
    · rw [if_neg hlt]
      exact ⟨_, rfl, by simp, by simp [hlt]⟩

/-- More fuel does not change a finished value scan. -/
theorem scanContents_mono (b : Buffer) (e : Nat) :
    ∀ fuel fuel2 pos contents r, scanContents b e fuel pos contents = some r → fuel ≤ fuel2 →
      scanContents b e fuel2 pos contents = some r
  | 0, fuel2, pos, contents, r, h, _ => by simp [scanContents] at h
  | fuel + 1, 0, pos, contents, r, _, hle => by omega
  | fuel + 1, fuel2 + 1, pos, contents, r, h, hle => by
    unfold scanContents at h ⊢
    split
    · rw [if_pos (by assumption)] at h
      split
      · rw [if_pos (by assumption)] at h
        exact h
      · rw [if_neg (by assumption)] at h
        split
        · rw [if_pos (by assumption)] at h
          exact h
        · rw [if_neg (by assumption)] at h
          simp only at h ⊢
          split
          · rw [if_pos (by assumption)] at h
            exact scanContents_mono b e fuel fuel2 _ _ r h (by omega)
          · rw [if_neg (by assumption)] at h
            exact h
    · rw [if_neg (by assumption)] at h
      exact h

theorem isspace_LF_ne {c : Char} (h : isspace c = false) : c ≠ '\n' := by
  intro hc
  subst hc
  simp [isspace] at h

/-- The body of the outer loop always finishes, and every branch leaves the
cursor beyond the one it started from. -/
theorem loopBody_total (b : Buffer) (e pos : Nat) (hlt : pos < e) :
    ∃ s, loopBody b e pos = some s ∧
      (∀ p, s = .next p → pos < p) ∧ (∀ f np, s = .done f np → pos < np) := by
  unfold loopBody
  simp only
  by_cases h1 : charAt b pos = '\n'
  · rw [if_pos h1]
    exact ⟨_, rfl, by simp, by simp⟩
  rw [if_neg h1]
  by_cases h2 : isCRLF b e pos = true
  · rw [if_pos h2]
    exact ⟨_, rfl, by simp, by simp⟩
  rw [if_neg h2]
  have hstep : pos < advanceWhile notLF b e (e - pos) pos := by
    obtain ⟨n, hn⟩ : ∃ n, e - pos = n + 1 := ⟨e - pos - 1, by omega⟩
    rw [hn]
    unfold advanceWhile
    rw [if_pos ⟨hlt, by simpa [notLF] using h1⟩]
    exact advanceWhile_ge notLF b e n (pos + 1)
  by_cases h3 : isspace (charAt b pos) = false
  · rw [if_pos h3]
    split
    · refine ⟨_, rfl, ?_, by simp⟩
      intro p hp
      simp only [Step.next.injEq] at hp
      subst hp
      split <;> omega
    · have hn := advanceWhile_ge isNameChar b e (e - pos) pos
      have hb := advanceWhile_ge isBlank b e
        (e - advanceWhile isNameChar b e (e - pos) pos)
        (advanceWhile isNameChar b e (e - pos) pos)
      have hw := advanceWhile_ge isBlank b e
        (e - (advanceWhile isBlank b e (e - advanceWhile isNameChar b e (e - pos) pos)
          (advanceWhile isNameChar b e (e - pos) pos) + 1))
        (advanceWhile isBlank b e (e - advanceWhile isNameChar b e (e - pos) pos)
          (advanceWhile isNameChar b e (e - pos) pos) + 1)
      obtain ⟨r, hr, hr1, _⟩ := scanContents_total b e
        (e - (advanceWhile isBlank b e
          (e - (advanceWhile isBlank b e (e - advanceWhile isNameChar b e (e - pos) pos)
            (advanceWhile isNameChar b e (e - pos) pos) + 1))
          (advanceWhile isBlank b e (e - advanceWhile isNameChar b e (e - pos) pos)
            (advanceWhile isNameChar b e (e - pos) pos) + 1)) + 1)
        (advanceWhile isBlank b e
          (e - (advanceWhile isBlank b e (e - advanceWhile isNameChar b e (e - pos) pos)
            (advanceWhile isNameChar b e (e - pos) pos) + 1))
          (advanceWhile isBlank b e (e - advanceWhile isNameChar b e (e - pos) pos)
            (advanceWhile isNameChar b e (e - pos) pos) + 1)) [] (by omega)
      rw [hr]
      refine ⟨_, rfl, by simp, ?_⟩
      intro f np hf
      simp only [Step.done.injEq] at hf
      omega
  · rw [if_neg h3]
    refine ⟨_, rfl, ?_, by simp⟩
    intro p hp
    simp only [Step.next.injEq] at hp
    subst hp
    split <;> omega

/-- With fuel beyond `end - pos` the outer loop finishes. -/
theorem parseNextLoop_total (b : Buffer) (e : Nat) :
    ∀ fuel pos, e - pos < fuel →
      ∃ r, parseNextLoop b e fuel pos = some r ∧ pos ≤ r.2 ∧ (pos < e → pos < r.2)
  | 0, pos, h => by omega
  | fuel + 1, pos, h => by
    unfold parseNextLoop
    by_cases hlt : pos < e
    · rw [if_pos hlt]
      obtain ⟨s, hs, hnext, hdone⟩ := loopBody_total b e pos hlt
      rw [hs]
      cases s with
      | done f np =>
        have := hdone f np rfl
        exact ⟨_, rfl, by simp; omega, by simp; omega⟩
      | next p =>
        have hp := hnext p rfl
        obtain ⟨r, hr, hr1, _⟩ := parseNextLoop_total b e fuel p (by omega)
        exact ⟨r, hr, by omega, by omega⟩
    · rw [if_neg hlt]
      exact ⟨_, rfl, by simp, by simp [hlt]⟩

/-- More fuel does not change a finished scan. -/
theorem parseNextLoop_mono (b : Buffer) (e : Nat) :
    ∀ fuel fuel2 pos r, parseNextLoop b e fuel pos = some r → fuel ≤ fuel2 →
      parseNextLoop b e fuel2 pos = some r
  | 0, fuel2, pos, r, h, _ => by simp [parseNextLoop] at h
  | fuel + 1, 0, pos, r, _, hle => by omega
  | fuel + 1, fuel2 + 1, pos, r, h, hle => by
    unfold parseNextLoop at h ⊢
    split
    · rw [if_pos (by assumption)] at h
      cases hs : loopBody b e pos with
      | none => simp [hs] at h
      | some s =>
        cases s with
        | done f np => simpa [hs] using h
        | next p =>
          simp only [hs] at h ⊢
          exact parseNextLoop_mono b e fuel fuel2 p r h (by omega)
    · rw [if_neg (by assumption)] at h
      exact h

/-- Any fuel beyond `end - pos` gives the result of `parseNext`. -/
theorem parseNextLoop_eq_parseNext (b : Buffer) (e fuel pos : Nat) (h : e - pos < fuel) :
    parseNextLoop b e fuel pos = parseNext b pos e := by
  obtain ⟨r, hr, _⟩ := parseNextLoop_total b e (e - pos + 1) pos (by omega)
  unfold parseNext
  rw [hr]
  exact parseNextLoop_mono b e _ _ pos r hr (by omega)

/-- One turn of the outer loop, unfolded. -/
theorem parseNext_unfold (b : Buffer) (e pos : Nat) (hlt : pos < e) :
    parseNext b pos e =
      match loopBody b e pos with
      | none => none
      | some (.done field newPosition) => some (field, newPosition)
      | some (.next p) => parseNext b p e := by
  obtain ⟨s, hs, hnext, _⟩ := loopBody_total b e pos hlt
  have h : parseNext b pos e = parseNextLoop b e (e - pos + 1) pos := rfl
  rw [h]
  unfold parseNextLoop
  rw [if_pos hlt, hs]
  cases s with
  | done f np => rfl
  | next p =>
    simp only
    exact parseNextLoop_eq_parseNext b e (e - pos) p (by have := hnext p rfl; omega)

theorem parseNext_of_le (b : Buffer) (e pos : Nat) (h : e ≤ pos) :
    parseNext b pos e = some (none, pos) := by
  unfold parseNext parseNextLoop
  rw [if_neg (by omega)]

theorem isCRLF_eq_false_of_ne {b : Buffer} {e pos : Nat} (h : charAt b pos ≠ '\r') :
    isCRLF b e pos = false := by
  simp [isCRLF, h]

/-- The turn of the outer loop on a line that opens with a space or a tab. -/
theorem loopBody_blank (b : Buffer) (position e q : Nat)
    (hc : charAt b position = ' ' ∨ charAt b position = '\t')
    (hq1 : position ≤ q) (hq2 : q < e) (hq3 : charAt b q = '\n')
    (hq4 : ∀ i, position ≤ i → i < q → charAt b i ≠ '\n') :
    loopBody b e position = some (.next (q + 1)) := by
  have h1 : charAt b position ≠ '\n' := by rcases hc with h | h <;> rw [h] <;> decide
  have h2 : charAt b position ≠ '\r' := by rcases hc with h | h <;> rw [h] <;> decide
  have h3 : ¬ (isspace (charAt b position) = false) := by
    rcases hc with h | h <;> rw [h] <;> decide
  have hskip : advanceWhile notLF b e (e - position) position = q :=
    advanceWhile_eq notLF b e q _ position hq1 (Nat.le_of_lt hq2) (by omega)
      (fun i hi hiq => by simpa [notLF] using hq4 i hi hiq) (by simp [notLF, hq3])
  unfold loopBody
  simp only
  rw [if_neg h1, isCRLF_eq_false_of_ne h2, if_neg (by simp), if_neg h3, hskip, if_pos hq3]

/-- The turn of the outer loop on a line whose name is not followed by a
colon. -/
theorem loopBody_no_colon (b : Buffer) (position e k m q : Nat)
    (hns : isspace (charAt b position) = false)
    (hname : ∀ i, i < k → isNameChar (charAt b (position + i)) = true)
    (hnameEnd : isNameChar (charAt b (position + k)) = false)
    (hblank : ∀ j, j < m → isBlank (charAt b (position + k + j)) = true)
    (hblankEnd : isBlank (charAt b (position + k + m)) = false)
    (hin : position + k + m < e)
    (hcolon : charAt b (position + k + m) ≠ ':')
    (hq1 : position ≤ q) (hq2 : q < e) (hq3 : charAt b q = '\n')
    (hq4 : ∀ i, position ≤ i → i < q → charAt b i ≠ '\n') :
    loopBody b e position = some (.next (q + 1)) := by
  have h1 : charAt b position ≠ '\n' := isspace_LF_ne hns
  have h2 : charAt b position ≠ '\r' := by
    intro hc
    rw [hc] at hns
    simp [isspace] at hns
  have hn : advanceWhile isNameChar b e (e - position) position = position + k :=
    advanceWhile_eq isNameChar b e (position + k) _ position (by omega) (by omega) (by omega)
      (fun i hi hik => by
        have := hname (i - position) (by omega)
        rwa [Nat.add_sub_cancel' hi] at this)
      (by simp [hnameEnd])
  have hb : advanceWhile isBlank b e (e - (position + k)) (position + k) = position + k + m :=
    advanceWhile_eq isBlank b e (position + k + m) _ (position + k) (by omega) (by omega)
      (by omega)
      (fun i hi hik => by
        have := hblank (i - (position + k)) (by omega)
        rwa [Nat.add_sub_cancel' hi] at this)
      (by simp [hblankEnd])
  have hskip : advanceWhile notLF b e (e - position) position = q :=
    advanceWhile_eq notLF b e q _ position hq1 (Nat.le_of_lt hq2) (by omega)
      (fun i hi hiq => by simpa [notLF] using hq4 i hi hiq) (by simp [notLF, hq3])
  unfold loopBody
  simp only
  rw [if_neg h1, isCRLF_eq_false_of_ne h2, if_neg (by simp), if_pos hns, hn, hb,
    if_pos hcolon, hskip, if_pos ⟨hq2, hq3⟩]

/-! ## Where a returned field comes from -/

/-- A field returned by the outer loop was returned by one of its turns. -/
theorem parseNextLoop_field (b : Buffer) (e : Nat) (f : headerField) (np : Nat) :
    ∀ fuel pos, parseNextLoop b e fuel pos = some (some f, np) →
      ∃ q, pos ≤ q ∧ q < e ∧ loopBody b e q = some (.done (some f) np)
  | 0, pos, h => by simp [parseNextLoop] at h
  | fuel + 1, pos, h => by
    unfold parseNextLoop at h
    by_cases hlt : pos < e
    · rw [if_pos hlt] at h
      obtain ⟨s, hs, hnext, _⟩ := loopBody_total b e pos hlt
      rw [hs] at h
      cases s with
      | done f2 np2 =>
        simp only [Option.some.injEq, Prod.mk.injEq] at h
        obtain ⟨h1, h2⟩ := h
        subst h1 h2
        exact ⟨pos, Nat.le_refl _, hlt, hs⟩
      | next p =>
        simp only at h
        obtain ⟨q, hq1, hq2, hq3⟩ := parseNextLoop_field b e f np fuel p h
        have := hnext p rfl
        exact ⟨q, by omega, hq2, hq3⟩
    · rw [if_neg hlt] at h
      simp at h

/-- The turn of the outer loop that returns a field: the byte at `pos` is not
whitespace, the name scan and the blank scan stop on a colon, and the field is
put together from the name scan and the value scan. -/
theorem loopBody_field (b : Buffer) (e pos : Nat) (f : headerField) (np : Nat)
    (h : loopBody b e pos = some (.done (some f) np)) :
    isspace (charAt b pos) = false ∧
    charAt b (colonOf b e pos) = ':' ∧
    f.name = substr b pos (nameEndOf b e pos) ∧
    f.parsedBounds = (pos, np) ∧
    ∃ fuel, scanContents b e fuel (valueStartOf b e pos) [] = some (np, f.contents) := by
  unfold loopBody at h
  simp only at h
  split at h
  · simp at h
  split at h
  · simp at h
  split at h
  · next hsp =>
    split at h
    · simp at h
    · next hcolon =>
      split at h
      · simp at h
      · next p2 contents hsc =>
        simp only [Option.some.injEq, Step.done.injEq] at h
        obtain ⟨hf, hnp⟩ := h
        subst hnp
        subst hf
        exact ⟨hsp, by simpa using hcolon, rfl, rfl, _, hsc⟩
  · simp at h

/-- From the start of the name to the start of the value there is no LF, and
the value starts behind the colon. -/
theorem no_LF_before_value (b : Buffer) (e pos : Nat) :
    pos ≤ colonOf b e pos ∧ colonOf b e pos < valueStartOf b e pos ∧
    (charAt b (colonOf b e pos) = ':' →
      ∀ j, pos ≤ j → j < valueStartOf b e pos → charAt b j ≠ '\n') := by
  have hn := advanceWhile_ge isNameChar b e (e - pos) pos
  have hb := advanceWhile_ge isBlank b e (e - nameEndOf b e pos) (nameEndOf b e pos)
  have hw := advanceWhile_ge isBlank b e (e - (colonOf b e pos + 1)) (colonOf b e pos + 1)
  refine ⟨Nat.le_trans hn hb, hw, fun hcolon j hj1 hj2 hc => ?_⟩
  rcases Nat.lt_or_ge j (nameEndOf b e pos) with h1 | h1
  · have := (advanceWhile_run isNameChar b e _ pos j hj1 h1).2
    rw [hc] at this
    simp [isNameChar, isspace] at this
  rcases Nat.lt_or_ge j (colonOf b e pos) with h2 | h2
  · have := (advanceWhile_run isBlank b e _ _ j h1 h2).2
    rw [hc] at this
    simp [isBlank] at this
  rcases Nat.eq_or_lt_of_le h2 with h3 | h3
  · rw [← h3, hcolon] at hc
    exact absurd hc (by decide)
  · have := (advanceWhile_run isBlank b e _ _ j h3 hj2).2
    rw [hc] at this
    simp [isBlank] at this

theorem charAt_of_lt (b : Buffer) (i : Nat) (h : i < b.length) : charAt b i = b[i] := by
  simp [charAt, List.getD_eq_getElem?_getD, List.getElem?_eq_getElem h]

theorem charAt_of_le (b : Buffer) (i : Nat) (h : b.length ≤ i) : charAt b i = Char.ofNat 0 := by
  simp [charAt, List.getD_eq_getElem?_getD, List.getElem?_eq_none h]

/-- A character of a substring is a character of the buffer inside the range. -/
theorem mem_substr (b : Buffer) (s t : Nat) (c : Char) (h : c ∈ substr b s t) :
    ∃ i, s ≤ i ∧ i < t ∧ charAt b i = c := by
  unfold substr at h
  obtain ⟨n, hn, hc⟩ := List.mem_iff_getElem.mp h
  have hn2 : n < t - s ∧ n < b.length - s := by
    simpa [List.length_take, List.length_drop] using hn
  refine ⟨s + n, by omega, by omega, ?_⟩
  rw [charAt_of_lt b (s + n) (by omega), ← hc, List.getElem_take, List.getElem_drop]

theorem substr_length_eq (b : Buffer) (s t : Nat) :
    substr b s (s + (substr b s t).length) = substr b s t := by
  unfold substr
  simp only [Nat.add_sub_cancel_left, List.length_take, List.length_drop]
  rcases Nat.le_total (t - s) (b.length - s) with h | h
  · rw [Nat.min_eq_left h]
  · rw [Nat.min_eq_right h, List.take_of_length_le (by simp),
      List.take_of_length_le (by simpa using h)]

/-! ## Where the value scan stops -/

/-- The line scan steps over no LF before the terminator it stops behind, and
inside the window it stops only behind an LF. -/
theorem scanLine_spec (b : Buffer) (e ctsEnd : Nat) :
    ∀ fuel pos,
      (e - pos ≤ fuel → (scanLine b e ctsEnd fuel pos).2 < e →
        charAt b ((scanLine b e ctsEnd fuel pos).2 - 1) = '\n' ∧
          pos < (scanLine b e ctsEnd fuel pos).2) ∧
      (∀ j, pos ≤ j → j + 1 < (scanLine b e ctsEnd fuel pos).2 → charAt b j ≠ '\n')
  | 0, pos => by
    simp only [scanLine]
    exact ⟨fun h1 h2 => by omega, fun j h1 h2 => by omega⟩
  | fuel + 1, pos => by
    unfold scanLine
    by_cases hlt : pos < e
    · rw [if_pos hlt]
      by_cases h1 : isCRLF b e pos = true
      · rw [if_pos h1]
        have hc := isCRLF_charAt h1
        refine ⟨fun _ _ => ⟨by simpa using hc.2, by simp⟩, fun j hj1 hj2 => ?_⟩
        have : j = pos := by simp only at hj2; omega
        subst this
        rw [hc.1]
        decide
      · rw [if_neg h1]
        by_cases h2 : charAt b pos = '\n'
        · rw [if_pos h2]
          exact ⟨fun _ _ => ⟨by simpa using h2, by simp⟩,
            fun j hj1 hj2 => by simp only at hj2; omega⟩
        · rw [if_neg h2]
          obtain ⟨ih1, ih2⟩ := scanLine_spec b e ctsEnd fuel (pos + 1)
          refine ⟨fun hf hr => ?_, fun j hj1 hj2 => ?_⟩
          · obtain ⟨h3, h4⟩ := ih1 (by omega) hr
            exact ⟨h3, by omega⟩
          · rcases Nat.eq_or_lt_of_le hj1 with h | h
            · subst h
              exact h2
            · exact ih2 j h hj2
    · rw [if_neg hlt]
      exact ⟨fun h1 h2 => by simp only at h2; omega, fun j h1 h2 => by simp only at h2; omega⟩

theorem isBlank_ne {c : Char} (h : isBlank c = true) : c ≠ '\r' ∧ c ≠ '\n' := by
  simp only [isBlank, Bool.or_eq_true, beq_iff_eq] at h
  rcases h with h | h <;> subst h <;> decide

/-- The value scan started inside the window stays inside it; where it stops
short of the end it stops behind an LF; every LF it steps over is followed by a
space or a tab; and, unless it stopped at once on an empty first line, it stops
short of the end only in front of a byte that is neither space nor tab. -/
theorem scanContents_spec (b : Buffer) (e : Nat) :
    ∀ fuel pos contents r, scanContents b e fuel pos contents = some r → pos ≤ e →
      r.1 ≤ e ∧
      (r.1 < e → pos < r.1 ∧ charAt b (r.1 - 1) = '\n') ∧
      (∀ j, pos ≤ j → j + 1 < r.1 → charAt b j = '\n' → isBlank (charAt b (j + 1)) = true) ∧
      ((isCRLF b e pos = false ∧ charAt b pos ≠ '\n') → r.1 < e →
        isBlank (charAt b r.1) = false) ∧
      ((isCRLF b e pos = true ∨ charAt b pos = '\n') → r.2 = contents)
  | 0, pos, contents, r, h, _ => by simp [scanContents] at h
  | fuel + 1, pos, contents, r, h, hle => by
    unfold scanContents at h
    by_cases hlt : pos < e
    · rw [if_pos hlt] at h
      by_cases h1 : isCRLF b e pos = true
      · rw [if_pos h1] at h
        have hr := (Option.some.inj h).symm
        subst hr
        have hc := isCRLF_charAt h1
        have hl := isCRLF_lt h1
        refine ⟨hl, fun _ => ⟨by simp, by simpa using hc.2⟩, fun j hj1 hj2 hj3 => ?_,
          fun hn _ => ?_, fun _ => rfl⟩
        · have : j = pos := by simp only at hj2; omega
          subst this
          rw [hc.1] at hj3
          exact absurd hj3 (by decide)
        · rw [h1] at hn
          exact absurd hn.1 (by simp)
      · rw [if_neg h1] at h
        by_cases h2 : charAt b pos = '\n'
        · rw [if_pos h2] at h
          have hr := (Option.some.inj h).symm
          subst hr
          exact ⟨hlt, fun _ => ⟨by simp, by simpa using h2⟩,
            fun j hj1 hj2 _ => by simp only at hj2; omega,
            fun hn _ => absurd h2 hn.2, fun _ => rfl⟩
        · rw [if_neg h2] at h
          simp only at h
          have hgt := scanLine_gt b e pos pos hlt (by simpa using h1) h2
          have hsle := scanLine_le b e pos (e - pos) pos hle
          obtain ⟨hs1, hs2⟩ := scanLine_spec b e pos (e - pos) pos
          have hs1 := hs1 (Nat.le_refl _)
          have hcase : ¬ (isCRLF b e pos = true ∨ charAt b pos = '\n') := by
            intro hc
            rcases hc with hc | hc
            · exact h1 hc
            · exact h2 hc
          by_cases h3 : isBlank (charAt b (scanLine b e pos (e - pos) pos).2) = true
          · rw [if_pos h3] at h
            obtain ⟨i1, i2, i3, i4, _⟩ := scanContents_spec b e fuel _ _ r h hsle
            have hb := isBlank_ne h3
            refine ⟨i1, fun hr => ?_, fun j hj1 hj2 hj3 => ?_, fun _ hr => ?_,
              fun hc => absurd hc hcase⟩
            · obtain ⟨h4, h5⟩ := i2 hr
              exact ⟨by omega, h5⟩
            · rcases Nat.lt_or_ge (j + 1) (scanLine b e pos (e - pos) pos).2 with hj | hj
              · exact absurd hj3 (hs2 j hj1 hj)
              · rcases Nat.eq_or_lt_of_le hj with hj | hj
                · rw [hj] at h3
                  exact h3
                · exact i3 j (by omega) hj2 hj3
            · exact i4 ⟨isCRLF_eq_false_of_ne hb.1, hb.2⟩ hr
          · rw [if_neg h3] at h
            have hr := (Option.some.inj h).symm
            subst hr
            refine ⟨hsle, fun hr => ⟨hgt, (hs1 hr).1⟩,
              fun j hj1 hj2 hj3 => absurd hj3 (hs2 j hj1 hj2),
              fun _ _ => by simpa using h3, fun hc => absurd hc hcase⟩
    · rw [if_neg hlt] at h
      have hr := (Option.some.inj h).symm
      subst hr
      refine ⟨hle, fun hr => by simp only at hr; omega,
        fun j hj1 hj2 _ => by simp only at hj2; omega,
        fun _ hr => by simp only at hr; omega, fun _ => rfl⟩

/-! ## Scanning a buffer of known shape -/

theorem charAt_drop (b : Buffer) (pos i : Nat) : charAt (b.drop pos) i = charAt b (pos + i) := by
  simp [charAt, List.getD_eq_getElem?_getD, List.getElem?_drop]

theorem charAt_append_left (x y : Buffer) (i : Nat) (h : i < x.length) :
    charAt (x ++ y) i = x[i] := by
  simp [charAt, List.getD_eq_getElem?_getD, List.getElem?_append_left h,
    List.getElem?_eq_getElem h]

theorem charAt_append_right (x y : Buffer) (i : Nat) :
    charAt (x ++ y) (x.length + i) = charAt y i := by
  simp [charAt, List.getD_eq_getElem?_getD, List.getElem?_append_right]

theorem charAt_cons_zero (c : Char) (y : Buffer) : charAt (c :: y) 0 = c := rfl

theorem drop_add_of_drop_eq {b : Buffer} {pos : Nat} {x y : Buffer}
    (h : b.drop pos = x ++ y) : b.drop (pos + x.length) = y := by
  rw [← List.drop_drop, h, List.drop_left]

theorem length_of_drop_eq {b : Buffer} {pos : Nat} {l : Buffer}
    (h : b.drop pos = l) (hne : l ≠ []) : pos + l.length = b.length := by
  have h1 : l.length = b.length - pos := by rw [← h, List.length_drop]
  have h2 : 0 < l.length := List.length_pos.mpr hne
  omega

/-- The byte at the cursor is the first byte of what is left of the buffer. -/
theorem charAt_of_drop_eq {b : Buffer} {pos : Nat} {l : Buffer} (h : b.drop pos = l) :
    charAt b pos = charAt l 0 := by
  rw [← h, charAt_drop, Nat.add_zero]

/-- A scan over a run of bytes that satisfy the loop condition, followed by one
that does not. -/
theorem advanceWhile_segment (cond : Char → Bool) (b : Buffer) (e pos fuel : Nat)
    (seg tail : Buffer) (h : b.drop pos = seg ++ tail) (hseg : ∀ c ∈ seg, cond c = true)
    (htail : cond (charAt tail 0) = false) (he : pos + seg.length ≤ e)
    (hf : seg.length ≤ fuel) :
    advanceWhile cond b e fuel pos = pos + seg.length := by
  refine advanceWhile_eq cond b e (pos + seg.length) fuel pos (by omega) he (by omega) ?_ ?_
  · intro i hi1 hi2
    obtain ⟨n, hn⟩ : ∃ n, i = pos + n := ⟨i - pos, by omega⟩
    subst hn
    have hi : n < seg.length := by omega
    rw [← charAt_drop, h, charAt_append_left seg tail n hi]
    exact hseg _ (List.getElem_mem hi)
  · intro hc
    have : charAt b (pos + seg.length) = charAt tail 0 := by
      rw [← charAt_drop, h, ← Nat.add_zero seg.length, charAt_append_right]
    rw [this, htail] at hc
    exact absurd hc.2 (by simp)

/-- The line scan over a content free of CR and LF, followed by a
terminator. -/
theorem scanLine_segment (b : Buffer) (ctsEnd : Nat) :
    ∀ (c : Buffer) (pos fuel : Nat) (t tail : Buffer), b.drop pos = c ++ (t ++ tail) →
      noLineBreak c → isTerminator t → c.length < fuel →
      scanLine b b.length ctsEnd fuel pos = (pos + c.length, pos + c.length + t.length)
  | [], pos, fuel, t, tail, h, _, ht, hf => by
    obtain ⟨n, hn⟩ : ∃ n, fuel = n + 1 := ⟨fuel - 1, by simp only [List.length_nil] at hf; omega⟩
    subst hn
    simp only [List.nil_append] at h
    have hc := charAt_of_drop_eq h
    have hc1 : charAt b (pos + 1) = charAt (t ++ tail) 1 := by rw [← h, charAt_drop]
    have hlen := length_of_drop_eq h (by rcases ht with ht | ht <;> subst ht <;> simp)
    unfold scanLine
    rcases ht with ht | ht <;> subst ht
    · simp only [List.length_append, List.length_cons, List.length_nil] at hlen
      have h1 : isCRLF b b.length pos = true := by
        simp only [isCRLF, hc, hc1, Bool.and_eq_true, decide_eq_true_eq, beq_iff_eq]
        exact ⟨⟨rfl, by omega⟩, rfl⟩
      rw [if_pos (by omega), if_pos h1]
      simp
    · simp only [List.length_append, List.length_cons, List.length_nil] at hlen
      have h0 : charAt b pos = '\n' := by rw [hc]; rfl
      have h1 : isCRLF b b.length pos = false :=
        isCRLF_eq_false_of_ne (by rw [h0]; decide)
      rw [if_pos (by omega), h1, if_neg (by simp), if_pos h0]
      simp
  | x :: c, pos, fuel, t, tail, h, hc, ht, hf => by
    obtain ⟨n, hn⟩ : ∃ n, fuel = n + 1 := ⟨fuel - 1, by omega⟩
    subst hn
    have hx := hc x (List.mem_cons_self x c)
    have hc0 : charAt b pos = x := by rw [charAt_of_drop_eq h]; rfl
    have hlen := length_of_drop_eq h (by simp)
    simp only [List.cons_append, List.length_cons] at hlen
    have hd : b.drop (pos + 1) = c ++ (t ++ tail) :=
      drop_add_of_drop_eq (x := [x]) (by simpa using h)
    unfold scanLine
    rw [if_pos (by omega), isCRLF_eq_false_of_ne (by rw [hc0]; exact hx.1), if_neg (by simp),
      if_neg (by rw [hc0]; exact hx.2),
      scanLine_segment b ctsEnd c (pos + 1) n t tail hd
        (fun y hy => hc y (List.mem_cons_of_mem x hy)) ht
        (by simp only [List.length_cons] at hf; omega)]
    simp only [List.length_cons, Prod.mk.injEq]
    omega

theorem substr_of_drop_eq {b : Buffer} {pos : Nat} {x y : Buffer} (h : b.drop pos = x ++ y) :
    substr b pos (pos + x.length) = x := by
  unfold substr
  rw [h, Nat.add_sub_cancel_left, List.take_left]

theorem charAt_append_zero (x y : Buffer) (h : x ≠ []) : charAt (x ++ y) 0 = charAt x 0 := by
  cases x with
  | nil => exact absurd rfl h
  | cons c x => rfl

theorem isBlank_charAt_zero (v : Buffer) : isBlank (charAt v 0) = startsBlank v := by
  cases v with
  | nil => decide
  | cons c v => rfl

theorem isTerminator_ne_nil {t : Buffer} (ht : isTerminator t) : t ≠ [] := by
  rcases ht with ht | ht <;> subst ht <;> simp

theorem isTerminator_charAt {t : Buffer} (ht : isTerminator t) (y : Buffer) :
    charAt (t ++ y) 0 = '\r' ∨ charAt (t ++ y) 0 = '\n' := by
  rcases ht with ht | ht <;> subst ht
  · exact Or.inl rfl
  · exact Or.inr rfl

theorem isTerminator_length {t : Buffer} (ht : isTerminator t) : 1 ≤ t.length := by
  rcases ht with ht | ht <;> subst ht <;> simp

/-- The value scan over physical lines with content, the first of any kind and
the others opening with a space or a tab, followed by a byte that is neither:
the contents are put together and the cursor ends behind the last
terminator. -/
theorem scanContents_fold (b : Buffer) :
    ∀ (lines : List (Buffer × Buffer)) (pos fuel : Nat) (acc rest : Buffer),
      b.drop pos = foldedText lines ++ rest → lines ≠ [] →
      (∀ l ∈ lines, l.1 ≠ [] ∧ noLineBreak l.1 ∧ isTerminator l.2) →
      (∀ l ∈ lines.tail, startsBlank l.1 = true) →
      startsBlank rest = false → lines.length ≤ fuel →
      scanContents b b.length fuel pos acc =
        some (pos + (foldedText lines).length, acc ++ foldedValue lines)
  | [], _, _, _, _, _, hne, _, _, _, _ => absurd rfl hne
  | l :: ls, pos, fuel, acc, rest, h, _, hl, hb, hrest, hf => by
    obtain ⟨n, hn⟩ : ∃ n, fuel = n + 1 := ⟨fuel - 1, by simp only [List.length_cons] at hf; omega⟩
    subst hn
    obtain ⟨hl1, hl2, hl3⟩ := hl l (List.mem_cons_self l ls)
    have h2 : b.drop pos = l.1 ++ (l.2 ++ (foldedText ls ++ rest)) := by
      rw [h]
      simp [foldedText]
    have hlen := length_of_drop_eq h2 (by simp [hl1])
    simp only [List.length_append] at hlen
    have hc0 : charAt b pos = charAt l.1 0 := by
      rw [charAt_of_drop_eq h2, charAt_append_zero _ _ hl1]
    have hmem : charAt l.1 0 ∈ l.1 := by
      rw [charAt_of_lt l.1 0 (List.length_pos.mpr hl1)]
      exact List.getElem_mem _
    have hnb := hl2 _ hmem
    have hpos : 0 < l.1.length := List.length_pos.mpr hl1
    have hline := scanLine_segment b pos l.1 pos (b.length - pos) l.2 _ h2 hl2 hl3
      (by have := isTerminator_length hl3; omega)
    have hd : b.drop (pos + l.1.length + l.2.length) = foldedText ls ++ rest :=
      drop_add_of_drop_eq (drop_add_of_drop_eq h2)
    unfold scanContents
    rw [if_pos (by omega), isCRLF_eq_false_of_ne (by rw [hc0]; exact hnb.1), if_neg (by simp),
      if_neg (by rw [hc0]; exact hnb.2)]
    simp only [hline]
    have hne : pos + l.1.length ≠ pos := by omega
    rw [if_pos hne, substr_of_drop_eq h2, charAt_of_drop_eq hd]
    cases ls with
    | nil =>
      simp only [foldedText, List.nil_append, isBlank_charAt_zero, hrest]
      simp only [Bool.false_eq_true, if_false, foldedValue, List.append_nil, List.length_append]
      rw [Nat.add_assoc]
    | cons l2 ls2 =>
      obtain ⟨hl21, _, _⟩ := hl l2 (by simp)
      have hb2 : startsBlank l2.1 = true := hb l2 (by simp)
      have hfirst : charAt (foldedText (l2 :: ls2) ++ rest) 0 = charAt l2.1 0 := by
        simp only [foldedText, List.append_assoc]
        exact charAt_append_zero _ _ hl21
      rw [hfirst, isBlank_charAt_zero, hb2, if_pos rfl,
        scanContents_fold b (l2 :: ls2) _ n (acc ++ l.1) rest hd (by simp)
          (fun x hx => hl x (List.mem_cons_of_mem l hx))
          (fun x hx => by
            have hx2 : x ∈ ls2 := by simpa using hx
            exact hb x (by simp [hx2]))
          hrest (by simp only [List.length_cons] at hf ⊢; omega)]
      simp only [foldedText, foldedValue, List.length_append, List.append_assoc, Option.some.injEq,
        Prod.mk.injEq, and_true]
      omega

/-- The value scan at the terminator of a line without value text. -/
theorem scanContents_empty (b : Buffer) (pos fuel : Nat) (t rest : Buffer)
    (h : b.drop pos = t ++ rest) (ht : isTerminator t) :
    scanContents b b.length (fuel + 1) pos [] = some (pos + t.length, []) := by
  have hlen := length_of_drop_eq h (by simp [isTerminator_ne_nil ht])
  have hc := charAt_of_drop_eq h
  have hc1 : charAt b (pos + 1) = charAt (t ++ rest) 1 := by rw [← h, charAt_drop]
  unfold scanContents
  rcases ht with ht | ht <;> subst ht
  · simp only [List.length_append, List.length_cons, List.length_nil] at hlen
    have h1 : isCRLF b b.length pos = true := by
      simp only [isCRLF, hc, hc1, Bool.and_eq_true, decide_eq_true_eq, beq_iff_eq]
      exact ⟨⟨rfl, by omega⟩, rfl⟩
    rw [if_pos (by omega), if_pos h1]
    rfl
  · simp only [List.length_append, List.length_cons, List.length_nil] at hlen
    have h0 : charAt b pos = '\n' := by rw [hc]; rfl
    rw [if_pos (by omega), isCRLF_eq_false_of_ne (by rw [h0]; decide), if_neg (by simp),
      if_pos h0]
    rfl

theorem nameBytes_isNameChar {name : Buffer} (h : nameBytes name) :
    ∀ c ∈ name, isNameChar c = true := by
  intro c hc
  obtain ⟨h1, h2, h3, h4, h5⟩ := h c hc
  simp [isNameChar, isspace, h1, h2, h3, h4, h5]

theorem allBlank_nil : allBlank [] := fun c hc => absurd hc (List.not_mem_nil c)

theorem allBlank_isBlank {w : Buffer} (h : allBlank w) : ∀ c ∈ w, isBlank c = true := by
  intro c hc
  rcases h c hc with h | h <;> subst h <;> decide

/-- The turn of the outer loop on a line made of a name, blanks, a colon and
blanks: the field is returned with what the value scan finds behind them. -/
theorem loopBody_header (b : Buffer) (pos : Nat) (name w1 w2 tail : Buffer)
    (h : b.drop pos = name ++ (w1 ++ (':' :: (w2 ++ tail))))
    (hne : name ≠ [] ∨ w1 = []) (hname : nameBytes name) (hw1 : allBlank w1)
    (hw2 : allBlank w2) (htail : startsBlank tail = false) :
    loopBody b b.length pos =
      match scanContents b b.length
        (b.length - (pos + name.length + w1.length + 1 + w2.length) + 1)
        (pos + name.length + w1.length + 1 + w2.length) [] with
      | none => none
      | some (p, contents) => some (.done (some ⟨name, contents, (pos, p)⟩) p) := by
  have hlen := length_of_drop_eq h (by simp)
  simp only [List.length_append, List.length_cons] at hlen
  have hd1 : b.drop (pos + name.length) = w1 ++ (':' :: (w2 ++ tail)) := drop_add_of_drop_eq h
  have hd2 : b.drop (pos + name.length + w1.length) = [':'] ++ (w2 ++ tail) :=
    drop_add_of_drop_eq hd1
  have hd3 : b.drop (pos + name.length + w1.length + 1) = w2 ++ tail :=
    drop_add_of_drop_eq hd2
  have hfirst : isNameChar (charAt b pos) = true ∨ charAt b pos = ':' := by
    rw [charAt_of_drop_eq h]
    cases name with
    | nil =>
      rcases hne with hne | hne
      · exact absurd rfl hne
      · subst hne
        exact Or.inr rfl
    | cons c name => exact Or.inl (nameBytes_isNameChar hname c (by simp))
  have h1 : charAt b pos ≠ '\n' := by
    rcases hfirst with hf | hf
    · intro hc
      rw [hc] at hf
      simp [isNameChar, isspace] at hf
    · rw [hf]
      decide
  have h2 : charAt b pos ≠ '\r' := by
    rcases hfirst with hf | hf
    · intro hc
      rw [hc] at hf
      simp [isNameChar, isspace] at hf
    · rw [hf]
      decide
  have h3 : isspace (charAt b pos) = false := by
    rcases hfirst with hf | hf
    · simp only [isNameChar, Bool.and_eq_true, Bool.not_eq_true'] at hf
      exact hf.2
    · rw [hf]
      decide
  have hn : advanceWhile isNameChar b b.length (b.length - pos) pos = pos + name.length :=
    advanceWhile_segment isNameChar b b.length pos _ name _ h (nameBytes_isNameChar hname)
      (by
        cases w1 with
        | nil => rfl
        | cons c w1 =>
          rcases hw1 c (by simp) with hc | hc <;> subst hc <;> rfl)
      (by omega) (by omega)
  have hb : advanceWhile isBlank b b.length (b.length - (pos + name.length))
      (pos + name.length) = pos + name.length + w1.length :=
    advanceWhile_segment isBlank b b.length _ _ w1 _ hd1 (allBlank_isBlank hw1) rfl
      (by omega) (by omega)
  have hcolon : ¬ (charAt b (pos + name.length + w1.length) ≠ ':') := by
    rw [charAt_of_drop_eq hd2]
    exact fun hc => hc rfl
  have hw : advanceWhile isBlank b b.length (b.length - (pos + name.length + w1.length + 1))
      (pos + name.length + w1.length + 1) = pos + name.length + w1.length + 1 + w2.length :=
    advanceWhile_segment isBlank b b.length _ _ w2 _ hd3 (allBlank_isBlank hw2)
      (by rw [isBlank_charAt_zero]; exact htail) (by omega) (by omega)
  unfold loopBody
  simp only
  rw [if_neg h1, isCRLF_eq_false_of_ne h2, if_neg (by simp), if_pos h3, hn, hb,
    if_neg hcolon, hw, substr_of_drop_eq h]

/-- The scan of a field whose value is made of physical lines with content. -/
theorem parseNext_lines_at (b : Buffer) (pos : Nat) (name w1 w2 : Buffer)
    (lines : List (Buffer × Buffer)) (rest : Buffer)
    (h : b.drop pos = name ++ (w1 ++ (':' :: (w2 ++ (foldedText lines ++ rest)))))
    (hne : name ≠ [] ∨ w1 = []) (hname : nameBytes name) (hw1 : allBlank w1)
    (hw2 : allBlank w2) (hlines : lines ≠ [])
    (hl : ∀ l ∈ lines, l.1 ≠ [] ∧ noLineBreak l.1 ∧ isTerminator l.2)
    (hfirst : ∀ l ∈ lines.head?, startsBlank l.1 = false)
    (hb : ∀ l ∈ lines.tail, startsBlank l.1 = true)
    (hrest : startsBlank rest = false) :
    parseNext b pos b.length =
      some (some ⟨name, foldedValue lines,
          (pos, pos + name.length + w1.length + 1 + w2.length + (foldedText lines).length)⟩,
        pos + name.length + w1.length + 1 + w2.length + (foldedText lines).length) := by
  have hlen := length_of_drop_eq h (by simp)
  simp only [List.length_append, List.length_cons] at hlen
  have htail : startsBlank (foldedText lines ++ rest) = false := by
    cases lines with
    | nil => exact absurd rfl hlines
    | cons l ls =>
      have h1 := hfirst l (by simp)
      obtain ⟨h2, _, _⟩ := hl l (by simp)
      rw [← isBlank_charAt_zero] at h1 ⊢
      simp only [foldedText, List.append_assoc]
      rw [charAt_append_zero _ _ h2]
      exact h1
  have hd : b.drop (pos + name.length + w1.length + 1 + w2.length) = foldedText lines ++ rest := by
    have hd1 := drop_add_of_drop_eq (drop_add_of_drop_eq h)
    have hd2 : b.drop (pos + name.length + w1.length) = [':'] ++ (w2 ++ (foldedText lines ++ rest)) :=
      hd1
    exact drop_add_of_drop_eq (drop_add_of_drop_eq hd2)
  have hfuel : lines.length ≤ (foldedText lines).length := by
    clear h hlen htail hd hfirst hb hlines
    induction lines with
    | nil => simp
    | cons l ls ih =>
      obtain ⟨h1, _, _⟩ := hl l (by simp)
      have := ih (fun x hx => hl x (List.mem_cons_of_mem l hx))
      have := List.length_pos.mpr h1
      simp only [foldedText, List.length_append, List.length_cons]
      omega
  rw [parseNext_unfold b b.length pos (by omega),
    loopBody_header b pos name w1 w2 _ h hne hname hw1 hw2 htail,
    scanContents_fold b lines _ _ [] rest hd hlines hl hb hrest (by omega)]
  rfl

/-- The scan of a field without value text on its first line. -/
theorem parseNext_empty_at (b : Buffer) (pos : Nat) (name w1 w2 t rest : Buffer)
    (h : b.drop pos = name ++ (w1 ++ (':' :: (w2 ++ (t ++ rest)))))
    (hne : name ≠ [] ∨ w1 = []) (hname : nameBytes name) (hw1 : allBlank w1)
    (hw2 : allBlank w2) (ht : isTerminator t) :
    parseNext b pos b.length =
      some (some ⟨name, [],
          (pos, pos + name.length + w1.length + 1 + w2.length + t.length)⟩,
        pos + name.length + w1.length + 1 + w2.length + t.length) := by
  have hlen := length_of_drop_eq h (by simp)
  simp only [List.length_append, List.length_cons] at hlen
  have htail : startsBlank (t ++ rest) = false := by
    rcases ht with ht | ht <;> subst ht <;> rfl
  have hd : b.drop (pos + name.length + w1.length + 1 + w2.length) = t ++ rest := by
    have hd1 := drop_add_of_drop_eq (drop_add_of_drop_eq h)
    have hd2 : b.drop (pos + name.length + w1.length) = [':'] ++ (w2 ++ (t ++ rest)) := hd1
    exact drop_add_of_drop_eq (drop_add_of_drop_eq hd2)
  rw [parseNext_unfold b b.length pos (by omega),
    loopBody_header b pos name w1 w2 _ h hne hname hw1 hw2 htail,
    scanContents_empty b _ _ t rest hd ht]

/-- The scan of a field of one physical line. -/
theorem parseNext_line_at (b : Buffer) (pos : Nat) (name w1 w2 v t rest : Buffer)
    (h : b.drop pos = name ++ (w1 ++ (':' :: (w2 ++ (v ++ (t ++ rest))))))
    (hne : name ≠ [] ∨ w1 = []) (hname : nameBytes name) (hw1 : allBlank w1)
    (hw2 : allBlank w2) (hv : noLineBreak v) (hv0 : startsBlank v = false)
    (ht : isTerminator t) (hrest : startsBlank rest = false) :
    parseNext b pos b.length =
      some (some ⟨name, v,
          (pos, pos + name.length + w1.length + 1 + w2.length + v.length + t.length)⟩,
        pos + name.length + w1.length + 1 + w2.length + v.length + t.length) := by
  by_cases hve : v = []
  · subst hve
    simp only [List.nil_append] at h
    rw [parseNext_empty_at b pos name w1 w2 t rest h hne hname hw1 hw2 ht]
    simp
  · have h2 : b.drop pos = name ++ (w1 ++ (':' :: (w2 ++ (foldedText [(v, t)] ++ rest)))) := by
      rw [h]
      simp [foldedText]
    rw [parseNext_lines_at b pos name w1 w2 [(v, t)] rest h2 hne hname hw1 hw2 (by simp)
      (by simpa using ⟨hve, hv, ht⟩) (by simpa using hv0) (by simp) hrest]
    simp [foldedText, foldedValue, Nat.add_assoc]

/-- The scan at an empty line. -/
theorem parseNext_blank_at (b : Buffer) (pos : Nat) (t rest : Buffer)
    (h : b.drop pos = t ++ rest) (ht : isTerminator t) :
    parseNext b pos b.length = some (none, pos + t.length) := by
  have hlen := length_of_drop_eq h (by simp [isTerminator_ne_nil ht])
  have hc := charAt_of_drop_eq h
  have hc1 : charAt b (pos + 1) = charAt (t ++ rest) 1 := by rw [← h, charAt_drop]
  have hl := isTerminator_length ht
  simp only [List.length_append] at hlen
  rw [parseNext_unfold b b.length pos (by omega)]
  unfold loopBody
  simp only
  rcases ht with ht | ht <;> subst ht
  · simp only [List.length_cons, List.length_nil] at hlen
    have h0 : charAt b pos = '\r' := by rw [hc]; rfl
    have h1 : isCRLF b b.length pos = true := by
      simp only [isCRLF, hc, hc1, Bool.and_eq_true, decide_eq_true_eq, beq_iff_eq]
      exact ⟨⟨rfl, by omega⟩, rfl⟩
    rw [if_neg (by rw [h0]; decide), if_pos h1]
    rfl
  · have h0 : charAt b pos = '\n' := by rw [hc]; rfl
    rw [if_pos h0]
    rfl

theorem startsBlank_headerBlock (lines : List (Buffer × Buffer × Buffer)) (blank : Buffer)
    (hl : ∀ l ∈ lines, l.1 ≠ [] ∧ nameBytes l.1 ∧ noLineBreak l.2.1 ∧ isTerminator l.2.2)
    (hb : isTerminator blank) : startsBlank (headerBlock lines ++ blank) = false := by
  cases lines with
  | nil =>
    rcases hb with hb | hb <;> subst hb <;> rfl
  | cons l ls =>
    obtain ⟨h1, h2, _, _⟩ := hl l (by simp)
    rw [← isBlank_charAt_zero]
    simp only [headerBlock, headerLine, List.append_assoc]
    rw [charAt_append_zero _ _ h1]
    have hmem : charAt l.1 0 ∈ l.1 := by
      rw [charAt_of_lt l.1 0 (List.length_pos.mpr h1)]
      exact List.getElem_mem _
    obtain ⟨_, h3, h4, _, _⟩ := h2 _ hmem
    simp [isBlank, h3, h4]

/-- The repeated scan over what is left of a buffer when that is a list of
header lines and an empty line. -/
theorem scanRepeatedly_block_at (b : Buffer) (blank : Buffer) (hb : isTerminator blank) :
    ∀ (lines : List (Buffer × Buffer × Buffer)) (pos : Nat),
      b.drop pos = headerBlock lines ++ blank →
      (∀ l ∈ lines, l.1 ≠ [] ∧ nameBytes l.1 ∧ noLineBreak l.2.1 ∧ isTerminator l.2.2) →
      ∃ fields, scanRepeatedly b (lines.length + 1) pos = some (fields, b.length) ∧
        fields.map (fun f => f.name) = lines.map (fun l => l.1) ∧
        fields.map (fun f => f.contents) = lines.map (fun l => l.2.1.dropWhile isBlank)
  | [], pos, h, _ => by
    simp only [headerBlock, List.nil_append] at h
    have h2 : b.drop pos = blank ++ [] := by simpa using h
    have hlen := length_of_drop_eq h (isTerminator_ne_nil hb)
    refine ⟨[], ?_, rfl, rfl⟩
    simp only [scanRepeatedly, List.length_nil, parseNext_blank_at b pos blank [] h2 hb, hlen]
  | l :: ls, pos, h, hl => by
    obtain ⟨h1, h2, h3, h4⟩ := hl l (by simp)
    have hls : ∀ x ∈ ls, x.1 ≠ [] ∧ nameBytes x.1 ∧ noLineBreak x.2.1 ∧ isTerminator x.2.2 :=
      fun x hx => hl x (List.mem_cons_of_mem l hx)
    have hsplit := List.takeWhile_append_dropWhile isBlank l.2.1
    have hshape : b.drop pos = l.1 ++ ([] ++ (':' :: ((' ' :: l.2.1.takeWhile isBlank) ++
        (l.2.1.dropWhile isBlank ++ (l.2.2 ++ (headerBlock ls ++ blank)))))) := by
      rw [h]
      simp only [headerBlock, headerLine, List.append_assoc, List.nil_append, List.cons_append]
      rw [← List.append_assoc (List.takeWhile isBlank l.2.1), hsplit]
    have hw2 : allBlank (' ' :: l.2.1.takeWhile isBlank) := by
      intro c hc
      rcases List.mem_cons.mp hc with hc | hc
      · exact Or.inl hc
      · have := List.mem_takeWhile_imp hc
        simpa [isBlank] using this
    have hv : noLineBreak (l.2.1.dropWhile isBlank) :=
      fun c hc => h3 c ((List.dropWhile_sublist _).subset hc)
    have hv0 : startsBlank (l.2.1.dropWhile isBlank) = false := by
      cases hd : l.2.1.dropWhile isBlank with
      | nil => rfl
      | cons c v =>
        have := List.head_dropWhile_not isBlank l.2.1 (by rw [hd]; simp)
        simp only [hd, List.head_cons] at this
        exact this
    have hparse := parseNext_line_at b pos l.1 [] _ _ l.2.2 _ hshape (Or.inl h1) h2
      allBlank_nil hw2 hv hv0 h4 (startsBlank_headerBlock ls blank hls hb)
    have hd : b.drop (pos + (headerLine l).length) = headerBlock ls ++ blank :=
      drop_add_of_drop_eq (by rw [h]; simp [headerBlock])
    have hlen : (headerLine l).length = l.1.length + 0 + 1 +
        (' ' :: l.2.1.takeWhile isBlank).length + (l.2.1.dropWhile isBlank).length +
        l.2.2.length := by
      have := congrArg List.length hsplit
      simp only [List.length_append] at this
      simp only [headerLine, List.length_append, List.length_cons]
      omega
    obtain ⟨fields, hf1, hf2, hf3⟩ := scanRepeatedly_block_at b blank hb ls _ hd hls
    have hpos : pos + l.1.length + ([] : Buffer).length + 1 +
        (' ' :: l.2.1.takeWhile isBlank).length + (l.2.1.dropWhile isBlank).length +
        l.2.2.length = pos + (headerLine l).length := by
      rw [hlen]
      simp only [List.length_nil]
      omega
    rw [hpos] at hparse
    refine ⟨⟨l.1, l.2.1.dropWhile isBlank, (pos, pos + (headerLine l).length)⟩ :: fields,
      ?_, by simp [hf2], by simp [hf3]⟩
    show scanRepeatedly b ((ls.length + 1) + 1) pos = _
    rw [scanRepeatedly]
    simp only [hparse, hf1]

/-! ## The two restart points of the no-colon skip -/

/-- A scan may as well start behind a run of bytes that lie in the window and
satisfy its loop condition. -/
theorem advanceWhile_from_run (cond : Char → Bool) (b : Buffer) (e pos q : Nat) (hle : pos ≤ q)
    (hrun : ∀ i, pos ≤ i → i < q → i < e ∧ cond (charAt b i) = true) :
    advanceWhile cond b e (e - pos) pos = advanceWhile cond b e (e - q) q := by
  rcases Nat.eq_or_lt_of_le hle with h | h
  · subst h
    rfl
  have hqe : q ≤ e := by
    have := (hrun (q - 1) (by omega) (by omega)).1
    omega
  have hge := advanceWhile_ge cond b e (e - q) q
  have hle2 := advanceWhile_le cond b e (e - q) q hqe
  refine advanceWhile_eq cond b e _ (e - pos) pos (by omega) hle2 (by omega) ?_
    (advanceWhile_exit cond b e (e - q) q (Nat.le_refl _))
  intro i hi1 hi2
  rcases Nat.lt_or_ge i q with hi | hi
  · exact (hrun i hi1 hi).2
  · exact (advanceWhile_run cond b e (e - q) q i hi hi2).2

/-- The skip to the next LF from the start of the line and the skip from the
stop point of the name scan end at the same place: the name scan and the blank
scan step over no LF. -/
theorem skip_from_stop (b : Buffer) (e pos : Nat) :
    advanceWhile notLF b e (e - pos) pos =
      advanceWhile notLF b e (e - colonOf b e pos) (colonOf b e pos) := by
  have hn := advanceWhile_ge isNameChar b e (e - pos) pos
  have hb := advanceWhile_ge isBlank b e (e - nameEndOf b e pos) (nameEndOf b e pos)
  refine advanceWhile_from_run notLF b e pos _ (Nat.le_trans hn hb) ?_
  intro i hi1 hi2
  rcases Nat.lt_or_ge i (nameEndOf b e pos) with h1 | h1
  · obtain ⟨h2, h3⟩ := advanceWhile_run isNameChar b e _ pos i hi1 h1
    refine ⟨h2, ?_⟩
    simp only [isNameChar, isspace, Bool.and_eq_true, bne_iff_ne, ne_eq, Bool.not_eq_true',
      Bool.or_eq_false_iff, beq_eq_false_iff_ne] at h3
    simpa [notLF] using h3.2.1.2
  · obtain ⟨h2, h3⟩ := advanceWhile_run isBlank b e _ _ i h1 hi2
    exact ⟨h2, by simpa [notLF] using (isBlank_ne h3).2⟩

theorem loopBodyFromStop_eq (b : Buffer) (e pos : Nat) :
    loopBodyFromStop b e pos = loopBody b e pos := by
  unfold loopBodyFromStop loopBody
  simp only
  rw [← skip_from_stop b e pos]

theorem parseNextLoopFromStop_eq (b : Buffer) (e : Nat) :
    ∀ fuel pos, parseNextLoopFromStop b e fuel pos = parseNextLoop b e fuel pos
  | 0, _ => rfl
  | fuel + 1, pos => by
    unfold parseNextLoopFromStop parseNextLoop
    rw [loopBodyFromStop_eq]
    split
    · cases loopBody b e pos with
      | none => rfl
      | some s =>
        cases s with
        | done f np => rfl
        | next p => exact parseNextLoopFromStop_eq b e fuel p
    · rfl

theorem parseNextFromStop_eq (b : Buffer) (position e : Nat) :
    parseNextFromStop b position e = parseNext b position e :=
  parseNextLoopFromStop_eq b e _ position

/-! ## The value text -/

theorem scanLine_fst (b : Buffer) (e ctsEnd : Nat) :
    ∀ fuel pos, (scanLine b e ctsEnd fuel pos).1 = ctsEnd ∨
      (pos ≤ (scanLine b e ctsEnd fuel pos).1 ∧
        (scanLine b e ctsEnd fuel pos).1 < (scanLine b e ctsEnd fuel pos).2)
  | 0, pos => Or.inl rfl
  | fuel + 1, pos => by
    unfold scanLine
    split
    · split
      · exact Or.inr ⟨Nat.le_refl _, by simp⟩
      · split
        · exact Or.inr ⟨Nat.le_refl _, by simp⟩
        · rcases scanLine_fst b e ctsEnd fuel (pos + 1) with h | h
          · exact Or.inl h
          · exact Or.inr ⟨by omega, h.2⟩
    · exact Or.inl rfl

/-- The line scan moves `ctsEnd` only to a terminator whose LF lies in the
window. -/
theorem scanLine_moved (b : Buffer) (e ctsEnd : Nat) :
    ∀ fuel pos, (scanLine b e ctsEnd fuel pos).1 ≠ ctsEnd →
      (scanLine b e ctsEnd fuel pos).2 ≤ e ∧
        charAt b ((scanLine b e ctsEnd fuel pos).2 - 1) = '\n'
  | 0, pos, h => absurd rfl h
  | fuel + 1, pos, h => by
    unfold scanLine at h ⊢
    by_cases hlt : pos < e
    · rw [if_pos hlt] at h ⊢
      by_cases h1 : isCRLF b e pos = true
      · rw [if_pos h1]
        exact ⟨isCRLF_lt h1, by simpa using (isCRLF_charAt h1).2⟩
      · rw [if_neg h1] at h ⊢
        by_cases h2 : charAt b pos = '\n'
        · rw [if_pos h2]
          exact ⟨hlt, by simpa using h2⟩
        · rw [if_neg h2] at h ⊢
          exact scanLine_moved b e ctsEnd fuel (pos + 1) h
    · rw [if_neg hlt] at h
      exact absurd rfl h

/-- The value scan adds no LF to the value text. -/
theorem scanContents_noLF (b : Buffer) (e : Nat) :
    ∀ fuel pos contents r, scanContents b e fuel pos contents = some r →
      (∀ c ∈ contents, c ≠ '\n') → ∀ c ∈ r.2, c ≠ '\n'
  | 0, pos, contents, r, h, _ => by simp [scanContents] at h
  | fuel + 1, pos, contents, r, h, hc => by
    unfold scanContents at h
    by_cases hlt : pos < e
    · rw [if_pos hlt] at h
      by_cases h1 : isCRLF b e pos = true
      · rw [if_pos h1] at h
        have hr := (Option.some.inj h).symm
        subst hr
        exact hc
      · rw [if_neg h1] at h
        by_cases h2 : charAt b pos = '\n'
        · rw [if_pos h2] at h
          have hr := (Option.some.inj h).symm
          subst hr
          exact hc
        · rw [if_neg h2] at h
          simp only at h
          have hacc : ∀ c ∈ (if (scanLine b e pos (e - pos) pos).1 ≠ pos then
              contents ++ substr b pos (scanLine b e pos (e - pos) pos).1 else contents),
              c ≠ '\n' := by
            intro c hmem
            split at hmem
            · next hne =>
              rcases List.mem_append.mp hmem with hm | hm
              · exact hc c hm
              · obtain ⟨i, hi1, hi2, hi3⟩ := mem_substr b pos _ c hm
                rcases scanLine_fst b e pos (e - pos) pos with hf | hf
                · exact absurd hf hne
                · rw [← hi3]
                  exact (scanLine_spec b e pos (e - pos) pos).2 i hi1 (by omega)
            · exact hc c hmem
          by_cases h3 : isBlank (charAt b (scanLine b e pos (e - pos) pos).2) = true
          · rw [if_pos h3] at h
            exact scanContents_noLF b e fuel _ _ r h hacc
          · rw [if_neg h3] at h
            have hr := (Option.some.inj h).symm
            subst hr
            exact hacc
    · rw [if_neg hlt] at h
      have hr := (Option.some.inj h).symm
      subst hr
      exact hc

/-- Where the line scan moved `ctsEnd` to, a terminator begins, and its LF
lies in the window. -/
theorem scanLine_term (b : Buffer) (e ctsEnd : Nat) :
    ∀ fuel pos, (scanLine b e ctsEnd fuel pos).1 ≠ ctsEnd →
      (scanLine b e ctsEnd fuel pos).1 < e ∧
        (charAt b (scanLine b e ctsEnd fuel pos).1 = '\n' ∨
          isCRLF b e (scanLine b e ctsEnd fuel pos).1 = true)
  | 0, pos, h => absurd rfl h
  | fuel + 1, pos, h => by
    unfold scanLine at h ⊢
    by_cases hlt : pos < e
    · rw [if_pos hlt] at h ⊢
      by_cases h1 : isCRLF b e pos = true
      · rw [if_pos h1]
        exact ⟨hlt, Or.inr h1⟩
      · rw [if_neg h1] at h ⊢
        by_cases h2 : charAt b pos = '\n'
        · rw [if_pos h2]
          exact ⟨hlt, Or.inl h2⟩
        · rw [if_neg h2] at h ⊢
          exact scanLine_term b e ctsEnd fuel (pos + 1) h
    · rw [if_neg hlt] at h
      exact absurd rfl h

theorem piecesText_append (b : Buffer) (ps qs : List (Nat × Nat)) :
    piecesText b (ps ++ qs) = piecesText b ps ++ piecesText b qs := by
  induction ps with
  | nil => rfl
  | cons p ps ih =>
    show substr b p.1 p.2 ++ piecesText b (ps ++ qs) = _
    rw [ih]
    simp [piecesText]

theorem isLinePiece_mono {b : Buffer} {e lo hi lo2 hi2 : Nat} {p : Nat × Nat}
    (h : isLinePiece b e lo hi p) (h1 : lo2 ≤ lo) (h2 : hi ≤ hi2) :
    isLinePiece b e lo2 hi2 p :=
  ⟨Nat.le_trans h1 h.1, h.2.1, Nat.lt_of_lt_of_le h.2.2.1 h2, h.2.2.2⟩

/-- The value scan puts the value text together from the contents of
physical lines, one behind the other in the buffer, each of which is followed
at once by its terminator inside the window. -/
theorem scanContents_pieces (b : Buffer) (e : Nat) :
    ∀ fuel pos contents r, scanContents b e fuel pos contents = some r →
      pos ≤ r.1 ∧
      ∃ pieces : List (Nat × Nat), r.2 = contents ++ piecesText b pieces ∧
        (∀ p ∈ pieces, isLinePiece b e pos r.1 p) ∧
        pieces.Pairwise (fun p q => p.2 < q.1)
  | 0, pos, contents, r, h => by simp [scanContents] at h
  | fuel + 1, pos, contents, r, h => by
    have hnil : ∀ x : Nat, pos ≤ x → pos ≤ x ∧
        ∃ pieces : List (Nat × Nat), contents = contents ++ piecesText b pieces ∧
          (∀ p ∈ pieces, isLinePiece b e pos x p) ∧
          pieces.Pairwise (fun p q => p.2 < q.1) :=
      fun x hx => ⟨hx, [], by simp [piecesText], fun p hp => absurd hp (List.not_mem_nil p),
        List.Pairwise.nil⟩
    unfold scanContents at h
    by_cases hlt : pos < e
    · rw [if_pos hlt] at h
      by_cases h1 : isCRLF b e pos = true
      · rw [if_pos h1] at h
        have hr := (Option.some.inj h).symm
        subst hr
        exact hnil _ (by omega)
      · rw [if_neg h1] at h
        by_cases h2 : charAt b pos = '\n'
        · rw [if_pos h2] at h
          have hr := (Option.some.inj h).symm
          subst hr
          exact hnil _ (by omega)
        · rw [if_neg h2] at h
          simp only at h
          have hgt := scanLine_gt b e pos pos hlt (by simpa using h1) h2
          -- the piece that this turn of the loop appends, if any
          have hfirst : ∃ ps : List (Nat × Nat),
              (if (scanLine b e pos (e - pos) pos).1 ≠ pos then
                contents ++ substr b pos (scanLine b e pos (e - pos) pos).1 else contents) =
                contents ++ piecesText b ps ∧
              (∀ p ∈ ps, isLinePiece b e pos (scanLine b e pos (e - pos) pos).2 p) ∧
              (∀ p ∈ ps, p.2 < (scanLine b e pos (e - pos) pos).2) ∧
              ps.Pairwise (fun p q => p.2 < q.1) := by
            by_cases hne : (scanLine b e pos (e - pos) pos).1 ≠ pos
            · rw [if_pos hne]
              have hfst : pos ≤ (scanLine b e pos (e - pos) pos).1 ∧
                  (scanLine b e pos (e - pos) pos).1 < (scanLine b e pos (e - pos) pos).2 := by
                rcases scanLine_fst b e pos (e - pos) pos with hf | hf
                · exact absurd hf hne
                · exact hf
              obtain ⟨ht1, ht2⟩ := scanLine_term b e pos (e - pos) pos hne
              refine ⟨[(pos, (scanLine b e pos (e - pos) pos).1)], by simp [piecesText], ?_, ?_,
                List.pairwise_singleton _ _⟩
              · intro p hp
                rw [List.mem_singleton.mp hp]
                refine ⟨Nat.le_refl _, ?_, hfst.2, ht1, ?_, ht2⟩
                · exact Nat.lt_of_le_of_ne hfst.1 (fun heq => hne heq.symm)
                · intro j hj1 hj2
                  have hj3 : j < (scanLine b e pos (e - pos) pos).1 := hj2
                  exact (scanLine_spec b e pos (e - pos) pos).2 j hj1 (by omega)
              · intro p hp
                rw [List.mem_singleton.mp hp]
                exact hfst.2
            · rw [if_neg hne]
              exact ⟨[], by simp [piecesText], fun p hp => absurd hp (List.not_mem_nil p),
                fun p hp => absurd hp (List.not_mem_nil p), List.Pairwise.nil⟩
          obtain ⟨ps, hps1, hps2, hps3, hps4⟩ := hfirst
          rw [hps1] at h
          by_cases h3 : isBlank (charAt b (scanLine b e pos (e - pos) pos).2) = true
          · rw [if_pos h3] at h
            obtain ⟨i1, qs, hq1, hq2, hq3⟩ := scanContents_pieces b e fuel _ _ r h
            refine ⟨by omega, ps ++ qs, ?_, ?_, ?_⟩
            · rw [hq1, piecesText_append, List.append_assoc]
            · intro p hp
              rcases List.mem_append.mp hp with hp | hp
              · exact isLinePiece_mono (hps2 p hp) (Nat.le_refl _) i1
              · exact isLinePiece_mono (hq2 p hp) (Nat.le_of_lt hgt) (Nat.le_refl _)
            · rw [List.pairwise_append]
              refine ⟨hps4, hq3, fun p hp q hq => ?_⟩
              have := hps3 p hp
              have := (hq2 q hq).1
              omega
          · rw [if_neg h3] at h
            have hr := (Option.some.inj h).symm
            subst hr
            exact ⟨Nat.le_of_lt hgt, ps, rfl, hps2, hps4⟩
    · rw [if_neg hlt] at h
      have hr := (Option.some.inj h).symm
      subst hr
      exact hnil _ (Nat.le_refl _)

/-- The value text of a returned field is made of pieces of the buffer, one
behind the other between the start of the field and `newPosition`, each free
of LF and followed at once by its terminator inside the window. -/
theorem parseNext_pieces (b : Buffer) (position e : Nat) (f : headerField) (np : Nat)
    (h : parseNext b position e = some (some f, np)) :
    ∃ pieces : List (Nat × Nat), f.contents = piecesText b pieces ∧
      (∀ p ∈ pieces, f.parsedBounds.1 < p.1 ∧ p.1 < p.2 ∧ p.2 < np ∧ p.2 < e ∧
        (∀ j, p.1 ≤ j → j < p.2 → charAt b j ≠ '\n') ∧
        (charAt b p.2 = '\n' ∨
          (charAt b p.2 = '\r' ∧ p.2 + 1 < e ∧ charAt b (p.2 + 1) = '\n'))) ∧
      pieces.Pairwise (fun p q => p.2 < q.1) := by
  obtain ⟨q, _, _, hq3⟩ := parseNextLoop_field b e f np _ position h
  obtain ⟨_, _, _, hbounds, fuel, hsc⟩ := loopBody_field b e q f np hq3
  obtain ⟨hp1, hp2, _⟩ := no_LF_before_value b e q
  obtain ⟨_, pieces, h1, h2, h3⟩ := scanContents_pieces b e fuel _ [] _ hsc
  refine ⟨pieces, by simpa using h1, fun p hp => ?_, h3⟩
  obtain ⟨g1, g2, g3, g4, g5, g6⟩ := h2 p hp
  rw [hbounds]
  refine ⟨by simp only; omega, g2, g3, g4, g5, ?_⟩
  rcases g6 with g | g
  · exact Or.inl g
  · exact Or.inr ⟨(isCRLF_charAt g).1, isCRLF_lt g, (isCRLF_charAt g).2⟩

/-! ## A line that runs to the end of the window -/

theorem charAt_ne_LF (l : Buffer) (h : ∀ x ∈ l, x ≠ '\n') (i : Nat) : charAt l i ≠ '\n' := by
  rcases Nat.lt_or_ge i l.length with hi | hi
  · rw [charAt_of_lt l i hi]
    exact h _ (List.getElem_mem hi)
  · rw [charAt_of_le l i hi]
    decide

/-- Without an LF from the cursor on, the line scan runs to the end of the
window and leaves `ctsEnd` as it was. -/
theorem scanLine_unterminated (b : Buffer) (e ctsEnd : Nat) :
    ∀ fuel pos, (∀ j, pos ≤ j → charAt b j ≠ '\n') → pos ≤ e → e - pos ≤ fuel →
      scanLine b e ctsEnd fuel pos = (ctsEnd, e)
  | 0, pos, _, hle, hf => by
    have : pos = e := by omega
    subst this
    rfl
  | fuel + 1, pos, h, hle, hf => by
    unfold scanLine
    by_cases hlt : pos < e
    · have h1 : isCRLF b e pos = false := by
        simp [isCRLF, h (pos + 1) (by omega)]
      rw [if_pos hlt, h1, if_neg (by simp), if_neg (h pos (Nat.le_refl _))]
      exact scanLine_unterminated b e ctsEnd fuel (pos + 1) (fun j hj => h j (by omega)) hlt
        (by omega)
    · have : pos = e := by omega
      subst this
      rw [if_neg hlt]

/-- Without an LF from the cursor on, the value scan runs to the end of the
window and adds nothing to the value text. -/
theorem scanContents_unterminated (b : Buffer) (e fuel pos : Nat) (contents : Buffer)
    (h : ∀ j, pos ≤ j → charAt b j ≠ '\n') (hle : pos ≤ e)
    (hend : isBlank (charAt b e) = false) :
    scanContents b e (fuel + 1) pos contents = some (e, contents) := by
  unfold scanContents
  by_cases hlt : pos < e
  · have h1 : isCRLF b e pos = false := by
      simp [isCRLF, h (pos + 1) (by omega)]
    rw [if_pos hlt, h1, if_neg (by simp), if_neg (h pos (Nat.le_refl _))]
    simp only [scanLine_unterminated b e pos (e - pos) pos h hle (Nat.le_refl _), hend]
    simp
  · have : pos = e := by omega
    subst this
    rw [if_neg hlt]

/-- The name scan started on a byte that is no name byte stops at once. -/
theorem nameEndOf_eq_self (b : Buffer) (e pos : Nat) (h : isNameChar (charAt b pos) = false) :
    nameEndOf b e pos = pos := by
  show advanceWhile isNameChar b e (e - pos) pos = pos
  cases e - pos with
  | zero => rfl
  | succ n =>
    unfold advanceWhile
    rw [if_neg (by simp [h])]

/-! ## The claims -/

/-- C1 (a block of header lines): for a buffer made of `N` lines
`name: value` with their terminators (names not empty and free of colon, space,
tab, CR and LF, values free of CR and LF, terminators CRLF or LF) and an empty
line, the repeated scan from position 0 returns `N` fields, named as the lines
are and in their order, each with the value of its line less its leading
spaces and tabs; the call after them returns no field, and its `newPosition`
is the length of the buffer. -/
theorem scanRepeatedly_header_block (lines : List (Buffer × Buffer × Buffer)) (blank : Buffer)
    (hl : ∀ l ∈ lines, l.1 ≠ [] ∧ nameBytes l.1 ∧ noLineBreak l.2.1 ∧ isTerminator l.2.2)
    (hb : isTerminator blank) :
    ∃ fields, scanRepeatedly (headerBlock lines ++ blank) (lines.length + 1) 0 =
        some (fields, (headerBlock lines ++ blank).length) ∧
      fields.length = lines.length ∧
      fields.map (fun f => f.name) = lines.map (fun l => l.1) ∧
      fields.map (fun f => f.contents) = lines.map (fun l => l.2.1.dropWhile isBlank) := by
  obtain ⟨fields, h1, h2, h3⟩ := scanRepeatedly_block_at (headerBlock lines ++ blank) blank hb
    lines 0 rfl hl
  refine ⟨fields, h1, ?_, h2, h3⟩
  have := congrArg List.length h2
  simpa using this

theorem scanRepeatedly_header_block_witness :
    headerBlock [("From".toList, "a@b.com".toList, "\r\n".toList), ("To".toList, [], "\n".toList),
        ("Subject".toList, " hi there".toList, "\r\n".toList)] ++ "\r\n".toList =
      "From: a@b.com\r\nTo: \nSubject:  hi there\r\n\r\n".toList ∧
    scanRepeatedly "From: a@b.com\r\nTo: \nSubject:  hi there\r\n\r\n".toList 4 0 =
      some ([⟨"From".toList, "a@b.com".toList, (0, 15)⟩, ⟨"To".toList, [], (15, 20)⟩,
        ⟨"Subject".toList, "hi there".toList, (20, 40)⟩], 42) ∧
    ∃ fields,
      scanRepeatedly
          (headerBlock [("From".toList, "a@b.com".toList, "\r\n".toList),
            ("To".toList, [], "\n".toList),
            ("Subject".toList, " hi there".toList, "\r\n".toList)] ++ "\r\n".toList)
          ([("From".toList, "a@b.com".toList, "\r\n".toList), ("To".toList, [], "\n".toList),
            ("Subject".toList, " hi there".toList, "\r\n".toList)].length + 1) 0 =
        some (fields,
          (headerBlock [("From".toList, "a@b.com".toList, "\r\n".toList),
            ("To".toList, [], "\n".toList),
            ("Subject".toList, " hi there".toList, "\r\n".toList)] ++ "\r\n".toList).length) ∧
      fields.length =
        [("From".toList, "a@b.com".toList, "\r\n".toList), ("To".toList, [], "\n".toList),
          ("Subject".toList, " hi there".toList, "\r\n".toList)].length ∧
      fields.map (fun f => f.name) =
        [("From".toList, "a@b.com".toList, "\r\n".toList), ("To".toList, [], "\n".toList),
          ("Subject".toList, " hi there".toList, "\r\n".toList)].map (fun l => l.1) ∧
      fields.map (fun f => f.contents) =
        [("From".toList, "a@b.com".toList, "\r\n".toList), ("To".toList, [], "\n".toList),
          ("Subject".toList, " hi there".toList, "\r\n".toList)].map
          (fun l => l.2.1.dropWhile isBlank) :=
  ⟨by decide, by decide,
    scanRepeatedly_header_block
      [("From".toList, "a@b.com".toList, "\r\n".toList), ("To".toList, [], "\n".toList),
        ("Subject".toList, " hi there".toList, "\r\n".toList)]
      "\r\n".toList (by decide) (by decide)⟩

/-- C2 (one line): for a buffer `name w1 ":" w2 v terminator rest`, with `name`
not empty and free of colon, space, tab, CR and LF, `w1` and `w2` runs of
spaces and tabs, `v` free of CR and LF and not opening with a space or a tab,
the terminator CRLF or LF, and `rest` empty or not opening with a space or a
tab, `parseNext` from position 0 returns the field named `name` with value
text `v`, with bounds from 0 to the offset behind the terminator, which is
also `newPosition`. -/
theorem parseNext_single_line (name w1 w2 v t rest : Buffer)
    (hne : name ≠ []) (hname : nameBytes name) (hw1 : allBlank w1) (hw2 : allBlank w2)
    (hv : noLineBreak v) (hv0 : startsBlank v = false) (ht : isTerminator t)
    (hrest : startsBlank rest = false) :
    parseNext (name ++ w1 ++ [':'] ++ w2 ++ v ++ t ++ rest) 0
        (name ++ w1 ++ [':'] ++ w2 ++ v ++ t ++ rest).length =
      some (some ⟨name, v, (0, (name ++ w1 ++ [':'] ++ w2 ++ v ++ t).length)⟩,
        (name ++ w1 ++ [':'] ++ w2 ++ v ++ t).length) := by
  rw [parseNext_line_at (name ++ w1 ++ [':'] ++ w2 ++ v ++ t ++ rest) 0 name w1 w2 v t rest
    (by simp) (Or.inl hne) hname hw1 hw2 hv hv0 ht hrest]
  simp only [List.length_append, List.length_cons, List.length_nil,
    Nat.zero_add, Option.some.injEq, Prod.mk.injEq, headerField.mk.injEq, true_and, and_self,
    and_true]

theorem parseNext_single_line_witness :
    parseNext "Foo:   bar\r\n".toList 0 12 =
      some (some ⟨"Foo".toList, "bar".toList, (0, 12)⟩, 12) :=
  parseNext_single_line "Foo".toList [] "   ".toList "bar".toList "\r\n".toList []
    (by decide) (by decide) (by decide) (by decide) (by decide) (by decide) (by decide)
    (by decide)

/-- C3 (folding): for a buffer `name ":" w v1 terminator` followed by
continuation lines and `rest`, with `name` free of colon, space, tab, CR and
LF, `w` a run of spaces and tabs, `v1` not empty, free of CR and LF and not
opening with a space or a tab, every continuation line a content that opens
with a space or a tab and is free of CR and LF with its terminator, and `rest`
empty or not opening with a space or a tab, `parseNext` from position 0
returns the field named `name` whose value text is `v1` with the contents of
the continuation lines appended as they stand, with bounds from 0 to the
offset behind the last terminator, which is also `newPosition`. -/
theorem parseNext_folding (name w v1 t0 : Buffer) (conts : List (Buffer × Buffer))
    (rest : Buffer) (hname : nameBytes name) (hw : allBlank w)
    (hv1 : v1 ≠ []) (hv1n : noLineBreak v1) (hv1b : startsBlank v1 = false)
    (ht0 : isTerminator t0)
    (hc : ∀ l ∈ conts, startsBlank l.1 = true ∧ noLineBreak l.1 ∧ isTerminator l.2)
    (hrest : startsBlank rest = false) :
    parseNext (name ++ [':'] ++ w ++ v1 ++ t0 ++ foldedText conts ++ rest) 0
        (name ++ [':'] ++ w ++ v1 ++ t0 ++ foldedText conts ++ rest).length =
      some (some ⟨name, v1 ++ foldedValue conts,
          (0, (name ++ [':'] ++ w ++ v1 ++ t0 ++ foldedText conts).length)⟩,
        (name ++ [':'] ++ w ++ v1 ++ t0 ++ foldedText conts).length) := by
  rw [parseNext_lines_at (name ++ [':'] ++ w ++ v1 ++ t0 ++ foldedText conts ++ rest) 0 name []
    w ((v1, t0) :: conts) rest (by simp [foldedText]) (Or.inr rfl) hname allBlank_nil hw
    (by simp)
    (by
      intro l hl
      rcases List.mem_cons.mp hl with hl | hl
      · subst hl
        exact ⟨hv1, hv1n, ht0⟩
      · obtain ⟨h1, h2, h3⟩ := hc l hl
        refine ⟨?_, h2, h3⟩
        intro hnil
        rw [hnil] at h1
        exact absurd h1 (by decide))
    (by simpa using hv1b) (fun l hl => (hc l (by simpa using hl)).1) hrest]
  simp only [foldedText, foldedValue, List.length_append, List.length_cons, List.length_nil,
    Nat.zero_add, Option.some.injEq, Prod.mk.injEq, headerField.mk.injEq, true_and, and_self,
    and_true]
  omega

theorem parseNext_folding_witness :
    parseNext "Subject: hello\r\n world\r\n\r\n".toList 0 26 =
      some (some ⟨"Subject".toList, "hello world".toList, (0, 24)⟩, 24) ∧
    parseNext "Subject: hello\r\n world\r\n\r\n".toList 24 26 = some (none, 26) :=
  ⟨parseNext_folding "Subject".toList " ".toList "hello".toList "\r\n".toList
      [(" world".toList, "\r\n".toList)] "\r\n".toList
      (by decide) (by decide) (by decide) (by decide) (by decide) (by decide) (by decide)
      (by decide),
    by decide⟩

/-- C4 (end of headers): with `position < end`, a bare LF at the cursor makes
`parseNext` return no field and `position + 1`, and a CR at the cursor followed
inside the window by LF makes it return no field and `position + 2`. -/
theorem parseNext_end_of_headers (b : Buffer) (position e : Nat) (h : position < e) :
    (charAt b position = '\n' → parseNext b position e = some (none, position + 1)) ∧
    (charAt b position = '\r' → position + 1 < e → charAt b (position + 1) = '\n' →
      parseNext b position e = some (none, position + 2)) := by
  constructor
  · intro hc
    rw [parseNext_unfold b e position h]
    unfold loopBody
    simp only
    rw [if_pos hc]
  · intro hc hlt hlf
    rw [parseNext_unfold b e position h]
    unfold loopBody
    simp only
    rw [if_neg (by rw [hc]; decide), if_pos (by simp [isCRLF, hc, hlt, hlf])]

theorem parseNext_end_of_headers_witness :
    parseNext "\nbody".toList 0 5 = some (none, 1) ∧
    parseNext "a: b\r\n\r\nbody".toList 6 12 = some (none, 8) :=
  ⟨(parseNext_end_of_headers "\nbody".toList 0 5 (by decide)).1 (by decide),
   (parseNext_end_of_headers "a: b\r\n\r\nbody".toList 6 12 (by decide)).2
     (by decide) (by decide) (by decide)⟩

/-- C5 (leading-whitespace line skip): when the byte at `position` is a space
or a tab and `q` is the first LF in `[position, end)`, the turn of the loop on
that line emits nothing and moves the cursor to `q + 1`, so `parseNext` from
`position` returns exactly what `parseNext` from `q + 1` returns. -/
theorem parseNext_skip_leading_whitespace (b : Buffer) (position e q : Nat)
    (hc : charAt b position = ' ' ∨ charAt b position = '\t')
    (hq1 : position ≤ q) (hq2 : q < e) (hq3 : charAt b q = '\n')
    (hq4 : ∀ i, position ≤ i → i < q → charAt b i ≠ '\n') :
    loopBody b e position = some (.next (q + 1)) ∧
    parseNext b position e = parseNext b (q + 1) e := by
  have hb := loopBody_blank b position e q hc hq1 hq2 hq3 hq4
  refine ⟨hb, ?_⟩
  rw [parseNext_unfold b e position (by omega), hb]

theorem parseNext_skip_leading_whitespace_witness :
    parseNext "   bogus\r\nTo: a@b.com\r\n\r\n".toList 0 25 =
      parseNext "   bogus\r\nTo: a@b.com\r\n\r\n".toList 10 25 ∧
    parseNext "   bogus\r\nTo: a@b.com\r\n\r\n".toList 10 25 =
      some (some ⟨"To".toList, "a@b.com".toList, (10, 23)⟩, 23) ∧
    parseNext "   bogus\r\nTo: a@b.com\r\n\r\n".toList 23 25 = some (none, 25) :=
  ⟨(parseNext_skip_leading_whitespace "   bogus\r\nTo: a@b.com\r\n\r\n".toList 0 25 9
      (by decide) (by decide) (by decide) (by decide) (by decide)).2,
    by decide, by decide⟩

/-- C6 (no-colon line skip): when the byte at `position` is not whitespace, the
maximal run of `k` name bytes from `position` and the maximal run of `m` spaces
and tabs after it end inside the window on a byte that is not a colon, and `q`
is the first LF in `[position, end)`, the turn of the loop on that line emits
nothing and moves the cursor to `q + 1`, so `parseNext` from `position` returns
exactly what `parseNext` from `q + 1` returns. -/
theorem parseNext_skip_no_colon (b : Buffer) (position e k m q : Nat)
    (hns : isspace (charAt b position) = false)
    (hname : ∀ i, i < k → isNameChar (charAt b (position + i)) = true)
    (hnameEnd : isNameChar (charAt b (position + k)) = false)
    (hblank : ∀ j, j < m → isBlank (charAt b (position + k + j)) = true)
    (hblankEnd : isBlank (charAt b (position + k + m)) = false)
    (hin : position + k + m < e)
    (hcolon : charAt b (position + k + m) ≠ ':')
    (hq1 : position ≤ q) (hq2 : q < e) (hq3 : charAt b q = '\n')
    (hq4 : ∀ i, position ≤ i → i < q → charAt b i ≠ '\n') :
    loopBody b e position = some (.next (q + 1)) ∧
    parseNext b position e = parseNext b (q + 1) e := by
  have hb := loopBody_no_colon b position e k m q hns hname hnameEnd hblank hblankEnd hin
    hcolon hq1 hq2 hq3 hq4
  refine ⟨hb, ?_⟩
  rw [parseNext_unfold b e position (by omega), hb]

theorem parseNext_skip_no_colon_witness :
    parseNext "NotAHeader\r\nTo: a@b.com\r\n\r\n".toList 0 27 =
      parseNext "NotAHeader\r\nTo: a@b.com\r\n\r\n".toList 12 27 ∧
    parseNext "NotAHeader\r\nTo: a@b.com\r\n\r\n".toList 12 27 =
      some (some ⟨"To".toList, "a@b.com".toList, (12, 25)⟩, 25) ∧
    parseNext "NotAHeader\r\nTo: a@b.com\r\n\r\n".toList 25 27 = some (none, 27) :=
  ⟨(parseNext_skip_no_colon "NotAHeader\r\nTo: a@b.com\r\n\r\n".toList 0 27 10 0 11
      (by decide) (by decide) (by decide) (by decide) (by decide) (by decide) (by decide)
      (by decide) (by decide) (by decide) (by decide)).2,
    by decide, by decide⟩

/-- C7 (bounds of a scanned field, as the code has them): when `parseNext`
over a window that ends at the end of the buffer returns a field with bounds
`(s, e)`, then `s` is at or behind `position` and is the index of the first
byte of the name; `e` is `newPosition`; `s < e ≤ length`; if `e` is short of the
end of the buffer the byte before `e` is an LF, so `e` is just behind a line
terminator; every LF inside `[s, e)` that is not its last byte is followed by a
space or a tab, so every physical line inside the bounds but the first is a
continuation line; and if the value text is not empty and `e` is short of the
end of the buffer, the byte at `e` is neither a space nor a tab. -/
theorem parseNext_parsedBounds (b : Buffer) (position : Nat) (f : headerField) (np : Nat)
    (h : parseNext b position b.length = some (some f, np)) :
    position ≤ f.parsedBounds.1 ∧
    substr b f.parsedBounds.1 (f.parsedBounds.1 + f.name.length) = f.name ∧
    f.parsedBounds.2 = np ∧
    f.parsedBounds.1 < np ∧ np ≤ b.length ∧
    (np < b.length → charAt b (np - 1) = '\n') ∧
    (∀ j, f.parsedBounds.1 ≤ j → j + 1 < np → charAt b j = '\n' →
      isBlank (charAt b (j + 1)) = true) ∧
    (f.contents ≠ [] → np < b.length → isBlank (charAt b np) = false) := by
  obtain ⟨q, hq1, hq2, hq3⟩ := parseNextLoop_field b b.length f np _ position h
  obtain ⟨_, hcolon, hname, hbounds, fuel, hsc⟩ := loopBody_field b b.length q f np hq3
  obtain ⟨hp1, hp2, hp3⟩ := no_LF_before_value b b.length q
  have hp3 := hp3 hcolon
  have hclt : colonOf b b.length q < b.length := by
    rcases Nat.lt_or_ge (colonOf b b.length q) b.length with hlt | hge
    · exact hlt
    · rw [charAt_of_le b _ hge] at hcolon
      exact absurd hcolon (by decide)
  have hvle : valueStartOf b b.length q ≤ b.length :=
    advanceWhile_le isBlank b b.length _ _ hclt
  obtain ⟨s1, s2, s3, s4, s5⟩ := scanContents_spec b b.length fuel _ [] _ hsc hvle
  simp only at s1 s2 s3 s4 s5
  have hvnp : valueStartOf b b.length q ≤ np := by
    rcases Nat.lt_or_ge np b.length with hlt | hge
    · exact Nat.le_of_lt (s2 hlt).1
    · omega
  rw [hbounds, hname]
  refine ⟨hq1, substr_length_eq b q _, rfl, by simp only; omega, s1, fun hlt => (s2 hlt).2,
    fun j hj1 hj2 hj3 => ?_, fun hne hlt => ?_⟩
  · rcases Nat.lt_or_ge j (valueStartOf b b.length q) with hj | hj
    · exact absurd hj3 (hp3 j hj1 hj)
    · exact s3 j hj hj2 hj3
  · refine s4 ⟨?_, ?_⟩ hlt
    · cases hcr : isCRLF b b.length (valueStartOf b b.length q) with
      | false => rfl
      | true => exact absurd (s5 (Or.inl hcr)) hne
    · intro hlf
      exact hne (s5 (Or.inr hlf))

theorem parseNext_parsedBounds_witness :
    parseNext "Subject: hello\r\n world\r\n\r\n".toList 0 26 =
      some (some ⟨"Subject".toList, "hello world".toList, (0, 24)⟩, 24) ∧
    substr "Subject: hello\r\n world\r\n\r\n".toList 0 (0 + 7) = "Subject".toList ∧
    charAt "Subject: hello\r\n world\r\n\r\n".toList (24 - 1) = '\n' ∧
    isBlank (charAt "Subject: hello\r\n world\r\n\r\n".toList 24) = false :=
  have h := parseNext_parsedBounds "Subject: hello\r\n world\r\n\r\n".toList 0
    ⟨"Subject".toList, "hello world".toList, (0, 24)⟩ 24 (by decide)
  ⟨by decide, h.2.1, h.2.2.2.2.2.1 (by decide), h.2.2.2.2.2.2.2 (by decide) (by decide)⟩

/-- C7 (counterexample to the bounds claim as stated): on `"a: b"`, whose only
line has no terminator, the field `a` is returned with bounds `(0, 4)` although
the buffer holds no LF for offset 4 to follow; and on `"a:\n b\n"` the field
`a` is returned with bounds `(0, 3)` although the byte at offset 3 is a
space. -/
theorem parseNext_parsedBounds_counterexample :
    (parseNext "a: b".toList 0 4 = some (some ⟨"a".toList, [], (0, 4)⟩, 4) ∧
      charAt "a: b".toList (4 - 1) ≠ '\n') ∧
    (parseNext "a:\n b\n".toList 0 6 = some (some ⟨"a".toList, [], (0, 3)⟩, 3) ∧
      3 < "a:\n b\n".toList.length ∧ charAt "a:\n b\n".toList 3 = ' ') := by
  decide

/-- C8 (termination and progress): every turn of the outer loop entered with
`pos < end` finishes and leaves the cursor strictly beyond `pos`, whichever
branch it takes; `parseNext` returns for every buffer, position and end; its
`newPosition` is strictly beyond `position` when `position < end`, and it
returns no field and `position` itself when `position ≥ end`. -/
theorem parseNext_terminates (b : Buffer) (position e : Nat) :
    (∀ pos, pos < e → ∃ s, loopBody b e pos = some s ∧
      (∀ p, s = .next p → pos < p) ∧ (∀ f np, s = .done f np → pos < np)) ∧
    (∃ r, parseNext b position e = some r ∧
      (position < e → position < r.2) ∧ (e ≤ position → r = (none, position))) := by
  refine ⟨fun pos hlt => loopBody_total b e pos hlt, ?_⟩
  obtain ⟨r, hr, _, hr2⟩ := parseNextLoop_total b e (e - position + 1) position (by omega)
  refine ⟨r, hr, hr2, ?_⟩
  intro hle
  have := parseNext_of_le b e position hle
  unfold parseNext at this
  rw [this] at hr
  exact (Option.some.inj hr).symm

/-- C9 (the cursor can leave the window): with `end = 1` on `" \n"` the
whitespace-line skip reads the LF at offset 1, outside the window, and steps
over it, so no field is returned with `newPosition = 2`; with `end = 1` on
`"a:b"` the colon at offset 1, outside the window, is taken for the colon of
the name, so the field `a` is returned with `newPosition = 2`. -/
theorem parseNext_leaves_window :
    parseNext " \n".toList 0 1 = some (none, 2) ∧
    parseNext "a:b".toList 0 1 = some (some ⟨"a".toList, [], (0, 2)⟩, 2) := by
  decide

/-- C10 (character set of the name): the name of a field returned by
`parseNext` holds no colon, space, tab, CR or LF. -/
theorem parseNext_name_charset (b : Buffer) (position e : Nat) (f : headerField) (np : Nat)
    (h : parseNext b position e = some (some f, np)) :
    ∀ c ∈ f.name, c ≠ ':' ∧ c ≠ ' ' ∧ c ≠ '\t' ∧ c ≠ '\r' ∧ c ≠ '\n' := by
  obtain ⟨q, _, _, hq3⟩ := parseNextLoop_field b e f np _ position h
  obtain ⟨_, _, hname, _, _⟩ := loopBody_field b e q f np hq3
  intro c hc
  rw [hname] at hc
  obtain ⟨i, hi1, hi2, hi3⟩ := mem_substr b q _ c hc
  have hrun := (advanceWhile_run isNameChar b e _ q i hi1 hi2).2
  rw [hi3] at hrun
  simp only [isNameChar, isspace, Bool.and_eq_true, Bool.or_eq_true, bne_iff_ne, ne_eq,
    Bool.not_eq_true', Bool.or_eq_false_iff, beq_eq_false_iff_ne] at hrun
  exact ⟨hrun.1, hrun.2.1.1.1, hrun.2.1.1.2, hrun.2.2, hrun.2.1.2⟩

theorem parseNext_name_charset_witness :
    parseNext "Foo:   bar\r\n".toList 0 12 = some (some ⟨"Foo".toList, "bar".toList, (0, 12)⟩, 12) ∧
    ∀ c ∈ "Foo".toList, c ≠ ':' ∧ c ≠ ' ' ∧ c ≠ '\t' ∧ c ≠ '\r' ∧ c ≠ '\n' :=
  ⟨by decide, parseNext_name_charset "Foo:   bar\r\n".toList 0 12
    ⟨"Foo".toList, "bar".toList, (0, 12)⟩ 12 (by decide)⟩

/-- C14 (custom fields): `isCustom()` is true exactly when the name is longer
than two bytes and opens with the bytes `X` and `-`; it is true for `X-Mailer`
and false for `Subject`, `X`, `X-` and `x-mailer`. -/
theorem isCustom_iff {V : Type} (f : headerFieldObject V) :
    (isCustom f = true ↔ 2 < f.m_name.length ∧ f.m_name.take 2 = ['X', '-']) ∧
    (∀ v : V, isCustom ⟨"X-Mailer".toList, v⟩ = true ∧
      isCustom ⟨"Subject".toList, v⟩ = false ∧ isCustom ⟨"X".toList, v⟩ = false ∧
      isCustom ⟨"X-".toList, v⟩ = false ∧ isCustom ⟨"x-mailer".toList, v⟩ = false) := by
  refine ⟨?_, fun v => ⟨rfl, rfl, rfl, rfl, rfl⟩⟩
  obtain ⟨name, v⟩ := f
  simp only [isCustom, Bool.and_eq_true, decide_eq_true_eq, beq_iff_eq]
  match name with
  | [] => simp
  | [a] => simp
  | a :: c :: rest =>
    simp only [List.length_cons, List.take_succ_cons, List.take_zero, List.cons.injEq, and_true]
    constructor
    · rintro ⟨⟨h1, h2⟩, h3⟩
      exact ⟨h1, h2, h3⟩
    · rintro ⟨h1, h2, h3⟩
      exact ⟨⟨h1, h2⟩, h3⟩

/-- C15 (generate, as the code has it): `generate` appends the bytes of the
name followed by a colon and a space to the stream and then hands that stream
to the generator of the value, with the same `maxLineLength` and the column
`curLinePos + length(name) + 2` taken modulo `2 ^ 64`, which is the sum itself
whenever the sum is below `2 ^ 64`; what the generator of the value yields,
stream and new column, is what `generate` yields, so that with a generator
that writes nothing the stream ends with the colon and the space and holds no
terminator written by `generate`. -/
theorem generate_spec {V : Type} (valueGenerate : V → Buffer → Nat → Nat → Buffer × Nat)
    (f : headerFieldObject V) (os : Buffer) (maxLineLength c : Nat) :
    generate valueGenerate f os maxLineLength c =
      valueGenerate f.value (os ++ f.m_name ++ ": ".toList) maxLineLength
        ((c + f.m_name.length + 2) % 2 ^ 64) ∧
    (c + f.m_name.length + 2 < 2 ^ 64 →
      generate valueGenerate f os maxLineLength c =
        valueGenerate f.value (os ++ f.m_name ++ ": ".toList) maxLineLength
          (c + f.m_name.length + 2)) ∧
    generate (fun _ o _ col => (o, col)) f os maxLineLength c =
      (os ++ f.m_name ++ ": ".toList, (c + f.m_name.length + 2) % 2 ^ 64) := by
  have h : ": ".toList = [':', ' '] := rfl
  have hgen : generate valueGenerate f os maxLineLength c =
      valueGenerate f.value (os ++ f.m_name ++ ": ".toList) maxLineLength
        ((c + f.m_name.length + 2) % 2 ^ 64) := by
    simp only [generate, sizeTypeModulus, h, List.append_assoc]
  refine ⟨hgen, fun hlt => ?_, ?_⟩
  · rw [hgen, Nat.mod_eq_of_lt hlt]
  · simp only [generate, sizeTypeModulus, h, List.append_assoc]

theorem generate_spec_witness :
    0 + "Subject".toList.length + 2 < 2 ^ 64 ∧
    generate (fun (_ : Unit) o _ col => (o ++ "x".toList, col + 1)) ⟨"Subject".toList, ()⟩
        "To: a\r\n".toList 78 0 =
      ("To: a\r\n".toList ++ "Subject".toList ++ ": ".toList ++ "x".toList,
        0 + "Subject".toList.length + 2 + 1) :=
  ⟨by decide,
    (generate_spec (fun (_ : Unit) o _ col => (o ++ "x".toList, col + 1))
      ⟨"Subject".toList, ()⟩ "To: a\r\n".toList 78 0).2.1 (by decide)⟩

/-- C15 (counterexample to the claim as stated): for the name `Subject` and
the current column `2 ^ 64 - 9`, the largest but eight of `string::size_type`,
`generate` hands the column 0 to the generator of the value, and not
`c + length(name) + 2`, which is `2 ^ 64`. -/
theorem generate_column_counterexample :
    18446744073709551607 < 2 ^ 64 ∧
    generate (fun (_ : Unit) o _ col => (o, col)) ⟨"Subject".toList, ()⟩ [] 78
        18446744073709551607 = ("Subject: ".toList, 0) ∧
    18446744073709551607 + "Subject".toList.length + 2 ≠ 0 := by
  decide

/-- C16 (copyFrom and assignment): after `a.copyFrom(b)` for fields `a` and `b`,
and likewise after `a = b`, the name of `a` is what it was, whatever the name
of `b`, and the value of `a` is what the `copyFrom` of the value makes of it
with the value of `b`. -/
theorem copyFrom_keeps_name {V : Type} (valueCopyFrom : V → V → V) (a b : headerFieldObject V) :
    copyFrom valueCopyFrom a (.field b) =
      .ok ⟨a.m_name, valueCopyFrom a.value b.value⟩ ∧
    assign valueCopyFrom a b = .ok ⟨a.m_name, valueCopyFrom a.value b.value⟩ :=
  ⟨rfl, rfl⟩

/-- C17 (clone): `clone()` of a field `f` is the field that the factory creates
for the current name of `f`, after `copyFrom(f)` on it: it has the name the
factory gave it, and the value of the created field after the `copyFrom` of the
value with the value of `f`; the call never fails on the cast, and `f` is only
read. -/
theorem clone_spec {V : Type} (create : Buffer → headerFieldObject V)
    (valueCopyFrom : V → V → V) (f : headerFieldObject V) :
    clone create valueCopyFrom f = copyFrom valueCopyFrom (create f.m_name) (.field f) ∧
    clone create valueCopyFrom f =
      .ok ⟨(create f.m_name).m_name, valueCopyFrom (create f.m_name).value f.value⟩ :=
  ⟨rfl, rfl⟩

/-- C19 (the restart point of the no-colon skip, as the code has it): for
every buffer, position and end, the scanner that restarts the skip to the next
LF at the stop point of the name scan returns what `parseNext`, which restarts
it at the start of the line, returns; every turn of the two loops is the
same. -/
theorem parseNext_restart_irrelevant (b : Buffer) (position e : Nat) :
    loopBodyFromStop b e position = loopBody b e position ∧
    parseNextFromStop b position e = parseNext b position e :=
  ⟨loopBodyFromStop_eq b e position, parseNextFromStop_eq b position e⟩

/-- C19 (counterexample to the claim as stated): there is no buffer and window
on which `parseNext` and the variant with the other restart point differ. -/
theorem parseNext_restart_counterexample :
    ¬ ∃ (b : Buffer) (position e : Nat), parseNext b position e ≠ parseNextFromStop b position e :=
  fun ⟨b, position, e, h⟩ => h (parseNextFromStop_eq b position e).symm

/-- C12 (no terminator in the value): the value text of a field returned by
`parseNext` holds no LF. -/
theorem parseNext_contents_noLF (b : Buffer) (position e : Nat) (f : headerField) (np : Nat)
    (h : parseNext b position e = some (some f, np)) :
    ∀ c ∈ f.contents, c ≠ '\n' := by
  obtain ⟨q, _, _, hq3⟩ := parseNextLoop_field b e f np _ position h
  obtain ⟨_, _, _, _, fuel, hsc⟩ := loopBody_field b e q f np hq3
  exact scanContents_noLF b e fuel _ [] _ hsc (fun c hc => absurd hc (List.not_mem_nil c))

theorem parseNext_contents_noLF_witness :
    parseNext "Subject: hello\r\n world\r\n\r\n".toList 0 26 =
      some (some ⟨"Subject".toList, "hello world".toList, (0, 24)⟩, 24) ∧
    ∀ c ∈ "hello world".toList, c ≠ '\n' :=
  ⟨by decide, parseNext_contents_noLF "Subject: hello\r\n world\r\n\r\n".toList 0 26
    ⟨"Subject".toList, "hello world".toList, (0, 24)⟩ 24 (by decide)⟩

/-- C11 (empty names, as the code has them): when `parseNext` over a window
inside the buffer returns a field, the name of the field is empty exactly when
the byte at the start of the field, the first of its bounds, is a colon; the
name of a field that starts with any other byte is not empty. -/
theorem parseNext_name_empty_iff (b : Buffer) (position e : Nat) (f : headerField) (np : Nat)
    (he : e ≤ b.length) (h : parseNext b position e = some (some f, np)) :
    f.name = [] ↔ charAt b f.parsedBounds.1 = ':' := by
  obtain ⟨q, _, hq2, hq3⟩ := parseNextLoop_field b e f np _ position h
  obtain ⟨hsp, _, hname, hbounds, _⟩ := loopBody_field b e q f np hq3
  rw [hbounds, hname]
  simp only
  constructor
  · intro hnil
    have hlen : (substr b q (nameEndOf b e q)).length = 0 := by rw [hnil]; rfl
    simp only [substr, List.length_take, List.length_drop] at hlen
    have hge : q ≤ nameEndOf b e q := advanceWhile_ge isNameChar b e (e - q) q
    have heq : nameEndOf b e q = q := by
      rcases Nat.min_eq_zero_iff.mp hlen with h0 | h0 <;> omega
    have hexit := advanceWhile_exit isNameChar b e (e - q) q (Nat.le_refl _)
    have heq2 : advanceWhile isNameChar b e (e - q) q = q := heq
    rw [heq2] at hexit
    have hnc : isNameChar (charAt b q) = false := by
      cases hc : isNameChar (charAt b q) with
      | false => rfl
      | true => exact absurd ⟨hq2, hc⟩ hexit
    simp only [isNameChar, hsp, Bool.not_false, Bool.and_true, bne_eq_false_iff_eq] at hnc
    exact hnc
  · intro hc
    rw [nameEndOf_eq_self b e q (by rw [hc]; decide)]
    simp [substr]

theorem parseNext_name_empty_iff_witness :
    parseNext "Foo:   bar\r\n".toList 0 12 =
      some (some ⟨"Foo".toList, "bar".toList, (0, 12)⟩, 12) ∧
    ("Foo".toList = [] ↔ charAt "Foo:   bar\r\n".toList 0 = ':') :=
  ⟨by decide, parseNext_name_empty_iff "Foo:   bar\r\n".toList 0 12
    ⟨"Foo".toList, "bar".toList, (0, 12)⟩ 12 (by decide) (by decide)⟩

/-- C11 (counterexample to the claim as stated): on `":v\n"`, a line whose
first byte is the colon, `parseNext` returns a field with the empty name. -/
theorem parseNext_name_empty_counterexample :
    parseNext ":v\n".toList 0 3 = some (some ⟨[], "v".toList, (0, 3)⟩, 3) := by
  decide

/-- C13 (the scan looks at the byte behind the window): the buffers `" x"` and
`" \n"` agree on the window from 0 to 1, and `parseNext` over that window
returns `newPosition = 1` on the first and `newPosition = 2` on the second;
line 218 reads the byte at `end`. -/
theorem parseNext_reads_behind_window :
    (∀ i, 0 ≤ i → i < 1 → charAt " x".toList i = charAt " \n".toList i) ∧
    parseNext " x".toList 0 1 = some (none, 1) ∧
    parseNext " \n".toList 0 1 = some (none, 2) := by
  refine ⟨fun i _ hi => ?_, by decide, by decide⟩
  have : i = 0 := by omega
  subst this
  rfl

/-- C18 (no folding behind a first line without value): on `"a:\n b\n"` the
field `a` is returned with the empty value text and `newPosition = 3`, the
offset behind the first terminator; the line ` b` is not taken as a
continuation, and the next call skips it and returns no field at the end of
the buffer. -/
theorem parseNext_no_fold_after_empty_line :
    parseNext "a:\n b\n".toList 0 6 = some (some ⟨"a".toList, [], (0, 3)⟩, 3) ∧
    parseNext "a:\n b\n".toList 3 6 = some (none, 6) := by
  decide

/-- C20 (a last line without terminator): for a buffer `name ":" w c`, with
`name` not empty and free of colon, space, tab, CR and LF, `w` a run of spaces
and tabs and `c` free of LF, `parseNext` from position 0 over the whole buffer
returns the field named `name` with the empty value text, bounds from 0 to the
length of the buffer, and the length of the buffer as `newPosition`.  In
general, for every buffer and window, the value text of a field that
`parseNext` returns is made of pieces of the buffer that lie one behind the
other between the start of the field and `newPosition`, each of them free of
LF and followed at once by an LF, or by CR and LF, inside the window: what
stands on a line whose terminator is not inside the window is no part of the
value text.  On the way, the line scan of lines 159-178 moves `ctsEnd` away
from `ctsStart` only when it stopped behind an LF inside the window. -/
theorem parseNext_unterminated (name w c : Buffer) (hne : name ≠ []) (hname : nameBytes name)
    (hw : allBlank w) (hc : ∀ x ∈ c, x ≠ '\n') :
    parseNext (name ++ [':'] ++ w ++ c) 0 (name ++ [':'] ++ w ++ c).length =
      some (some ⟨name, [], (0, (name ++ [':'] ++ w ++ c).length)⟩,
        (name ++ [':'] ++ w ++ c).length) ∧
    (∀ (b : Buffer) (position e : Nat) (f : headerField) (np : Nat),
      parseNext b position e = some (some f, np) →
      ∃ pieces : List (Nat × Nat), f.contents = piecesText b pieces ∧
        (∀ p ∈ pieces, f.parsedBounds.1 < p.1 ∧ p.1 < p.2 ∧ p.2 < np ∧ p.2 < e ∧
          (∀ j, p.1 ≤ j → j < p.2 → charAt b j ≠ '\n') ∧
          (charAt b p.2 = '\n' ∨
            (charAt b p.2 = '\r' ∧ p.2 + 1 < e ∧ charAt b (p.2 + 1) = '\n'))) ∧
        pieces.Pairwise (fun p q => p.2 < q.1)) ∧
    (∀ (b : Buffer) (e pos : Nat), (scanLine b e pos (e - pos) pos).1 ≠ pos →
      (scanLine b e pos (e - pos) pos).2 ≤ e ∧
        charAt b ((scanLine b e pos (e - pos) pos).2 - 1) = '\n') := by
  refine ⟨?_, fun b position e f np h => parseNext_pieces b position e f np h,
    fun b e pos h => scanLine_moved b e pos (e - pos) pos h⟩
  have hsplit := List.takeWhile_append_dropWhile isBlank c
  have hshape : (name ++ [':'] ++ w ++ c).drop 0 =
      name ++ ([] ++ (':' :: ((w ++ c.takeWhile isBlank) ++ c.dropWhile isBlank))) := by
    simp only [List.drop_zero, List.append_assoc, List.nil_append, List.cons_append, hsplit]
  have hw2 : allBlank (w ++ c.takeWhile isBlank) := by
    intro x hx
    rcases List.mem_append.mp hx with hx | hx
    · exact hw x hx
    · have := List.mem_takeWhile_imp hx
      simpa [isBlank] using this
  have htail : startsBlank (c.dropWhile isBlank) = false := by
    cases hd : c.dropWhile isBlank with
    | nil => rfl
    | cons x v =>
      have := List.head_dropWhile_not isBlank c (by rw [hd]; simp)
      simp only [hd, List.head_cons] at this
      exact this
  have hbody := loopBody_header (name ++ [':'] ++ w ++ c) 0 name [] (w ++ c.takeWhile isBlank)
    (c.dropWhile isBlank) hshape (Or.inl hne) hname allBlank_nil hw2 htail
  have hlen : (name ++ [':'] ++ w ++ c).length =
      0 + name.length + ([] : Buffer).length + 1 + (w ++ c.takeWhile isBlank).length +
        (c.dropWhile isBlank).length := by
    have := congrArg List.length hsplit
    simp only [List.length_append, List.length_cons, List.length_nil] at this ⊢
    omega
  have hd : (name ++ [':'] ++ w ++ c).drop
      (0 + name.length + ([] : Buffer).length + 1 + (w ++ c.takeWhile isBlank).length) =
      c.dropWhile isBlank := by
    have hd1 := drop_add_of_drop_eq (drop_add_of_drop_eq hshape)
    have hd2 : (name ++ [':'] ++ w ++ c).drop (0 + name.length + ([] : Buffer).length) =
        [':'] ++ ((w ++ c.takeWhile isBlank) ++ c.dropWhile isBlank) := hd1
    exact drop_add_of_drop_eq (drop_add_of_drop_eq hd2)
  have hnoLF : ∀ j, 0 + name.length + ([] : Buffer).length + 1 +
      (w ++ c.takeWhile isBlank).length ≤ j → charAt (name ++ [':'] ++ w ++ c) j ≠ '\n' := by
    intro j hj
    obtain ⟨n, hn⟩ : ∃ n, j = 0 + name.length + ([] : Buffer).length + 1 +
        (w ++ c.takeWhile isBlank).length + n := ⟨j - _, (Nat.add_sub_cancel' hj).symm⟩
    rw [hn, ← charAt_drop, hd]
    exact charAt_ne_LF _ (fun x hx => hc x ((List.dropWhile_sublist _).subset hx)) n
  have hend : isBlank (charAt (name ++ [':'] ++ w ++ c) (name ++ [':'] ++ w ++ c).length) =
      false := by
    rw [charAt_of_le _ _ (Nat.le_refl _)]
    decide
  rw [parseNext_unfold _ _ 0 (by simp), hbody,
    scanContents_unterminated _ _ _ _ [] hnoLF (by omega) hend]

theorem parseNext_unterminated_witness :
    parseNext "a: b".toList 0 4 = some (some ⟨"a".toList, [], (0, 4)⟩, 4) ∧
    parseNext "a: b\n c".toList 0 7 = some (some ⟨"a".toList, "b".toList, (0, 7)⟩, 7) ∧
    "b".toList = piecesText "a: b\n c".toList [(3, 4)] :=
  ⟨(parseNext_unterminated "a".toList " ".toList "b".toList (by decide) (by decide) (by decide)
    (by decide)).1, by decide, by decide⟩

end vmime
